import Mathlib

/-!
Backtracking Sudoku solver (`src/comptime_sudoku.cpp`).

A shallow embedding of `sudoku_solver<N, unsigned int>` and a verification of its
search contract.

* `board<N>` is `std::array<std::array<T, N * N>, N * N>`.  It is embedded as a list of
  rows; the fixed dimensions of the C++ type are the predicate `WF N`.
* Cell values and indices are natural numbers.  A `board<N>` holds `N ^ 4` cells of four
  bytes, so every instantiable `N` has `N * N + 1` far below `2 ^ 32`: the counter
  `T value` of the candidate loop never wraps and no index computation overflows.
* `solve_sudoku` mutates its argument through a reference.  The embedding passes the
  working grid explicitly: a call returns the `std::optional` result together with the
  working grid as the call leaves it.
* The recursion of `solve_sudoku` is bounded by a fuel argument; `get_solved` supplies
  one unit more than the number of blank cells, which is shown to be enough.
* Reads and writes of the board are total functions on lists.  That the solver stays inside
  the array is shown separately, on a copy of the solver in which every access is checked.
* The constructor from a vector reads `v[i][j]` with `operator[]`; an input on which such a
  read leaves the vector has no defined behaviour and no result in the embedding.
-/

namespace ComptimeSudoku

/-! ## Data model -/

/-- The type `board<N, T>`: a list of rows, each a list of cells. -/
abbrev board := List (List Nat)

/-- The read `b[row][col]`. -/
def cell (b : board) (row col : Nat) : Nat := (b.getD row []).getD col 0

/-- The write `b[row][col] = value`. -/
def set_cell (b : board) (row col value : Nat) : board :=
  b.set row ((b.getD row []).set col value)

/-- A board has exactly `N * N` rows of `N * N` cells, as the array type prescribes. -/
def WF (N : Nat) (b : board) : Prop :=
  b.length = N * N ∧ ∀ r ∈ b, r.length = N * N

/-! ## The solver -/

/-- The member `is_valid_placement` (lines 20-31): one pass over `i < MAX` that compares the
`i`-th cell of the row, of the column and of the box with the candidate. -/
def is_valid_placement (N : Nat) (solution : board) (row col possible_value : Nat) : Bool :=
  (List.range (N * N)).all fun i =>
    !(cell solution row i == possible_value ||
      cell solution i col == possible_value ||
      cell solution (N * (row / N) + i / N) (N * (col / N) + i % N) == possible_value)

/-- The two scanning loops of `solve_sudoku` (lines 35-37): the first cell, in row-major
order, that holds `0`. -/
def find_blank (N : Nat) (solution : board) : Option (Nat × Nat) :=
  (List.range (N * N)).findSome? fun row =>
    (List.range (N * N)).findSome? fun col =>
      if cell solution row col = 0 then some (row, col) else none

/-- The candidate loop of `solve_sudoku` (lines 38-49) at the blank cell `(row, col)`, over the
candidates still to be tried.  `recurse` is the recursive call of line 42.  The outer
`Option` is `none` when the recursion ran out of fuel; otherwise the pair is the returned
`std::optional<board>` and the working grid on return. -/
def try_values (N : Nat) (recurse : board → Option (Option board × board))
    (row col : Nat) : List Nat → board → Option (Option board × board)
  | [], solution => some (none, solution)
  | value :: rest, solution =>
    if is_valid_placement N solution row col value then
      match recurse (set_cell solution row col value) with
      | none => none
      | some (some _, s) => some (some s, s)
      | some (none, s) => try_values N recurse row col rest (set_cell s row col 0)
    else try_values N recurse row col rest solution

/-- The member `solve_sudoku` (lines 33-54), with a bound on the recursion depth. -/
def solve_sudoku (N : Nat) : Nat → board → Option (Option board × board)
  | 0, _ => none
  | fuel + 1, solution =>
    match find_blank N solution with
    | some (row, col) =>
      try_values N (solve_sudoku N fuel) row col (List.range' 1 (N * N)) solution
    | none => some (some solution, solution)

/-- The number of blank cells of a board. -/
def count_blank (b : board) : Nat := (b.map fun r => r.count 0).sum

/-- The member `get_solved` (lines 67-70): the search runs on a copy of the stored board. -/
def get_solved (N : Nat) (b : board) : Option board :=
  match solve_sudoku N (count_blank b + 1) b with
  | some (result, _) => result
  | none => none

/-! ## Specification vocabulary -/

/-- Every cell lies in `[0, S]`. -/
def in_range (N : Nat) (b : board) : Prop :=
  ∀ r < N * N, ∀ c < N * N, cell b r c ≤ N * N

/-- Every cell lies in `[1, S]`: the board has no blank. -/
def filled (N : Nat) (b : board) : Prop :=
  ∀ r < N * N, ∀ c < N * N, 1 ≤ cell b r c ∧ cell b r c ≤ N * N

/-- The board has no blank cell. -/
def no_blank (N : Nat) (b : board) : Prop :=
  ∀ r < N * N, ∀ c < N * N, cell b r c ≠ 0

/-- The cells `(r, c)` and `(r', c')` share a row, a column or an `N × N` box. -/
def same_unit (N r c r' c' : Nat) : Prop :=
  r = r' ∨ c = c' ∨ (r / N = r' / N ∧ c / N = c' / N)

/-- No two distinct non-blank cells that share a row, a column or a box hold the same value. -/
def consistent (N : Nat) (b : board) : Prop :=
  ∀ r < N * N, ∀ c < N * N, ∀ r' < N * N, ∀ c' < N * N,
    (r ≠ r' ∨ c ≠ c') → same_unit N r c r' c' → cell b r c ≠ 0 → cell b r c ≠ cell b r' c'

/-- The board `h` holds the value of `g` at every non-blank cell of `g`. -/
def agrees (N : Nat) (g h : board) : Prop :=
  ∀ r < N * N, ∀ c < N * N, cell g r c ≠ 0 → cell h r c = cell g r c

/-- Every value `1..S` occurs exactly once in every row, every column and every box. -/
def valid_complete (N : Nat) (b : board) : Prop :=
  (∀ r < N * N, ∀ v, 1 ≤ v → v ≤ N * N → ∃! c, c < N * N ∧ cell b r c = v) ∧
  (∀ c < N * N, ∀ v, 1 ≤ v → v ≤ N * N → ∃! r, r < N * N ∧ cell b r c = v) ∧
  (∀ br < N, ∀ bc < N, ∀ v, 1 ≤ v → v ≤ N * N →
    ∃! p : Nat × Nat, p.1 / N = br ∧ p.2 / N = bc ∧ cell b p.1 p.2 = v)

/-- A valid completion of `g`: a well-formed, fully filled board that agrees with `g` on the
given cells and satisfies row, column and box uniqueness. -/
def valid_completion (N : Nat) (g h : board) : Prop :=
  WF N h ∧ filled N h ∧ agrees N g h ∧ valid_complete N h

/-- The boards the search can end in: `h` keeps the given cells of `g`, and every cell that
is blank in `g` holds a value of `1..S` that no other cell of its row, column or box holds. -/
def search_completion (N : Nat) (g h : board) : Prop :=
  agrees N g h ∧
  ∀ r < N * N, ∀ c < N * N, cell g r c = 0 →
    (1 ≤ cell h r c ∧ cell h r c ≤ N * N) ∧
    ∀ r' < N * N, ∀ c' < N * N, (r ≠ r' ∨ c ≠ c') → same_unit N r c r' c' →
      cell h r c ≠ cell h r' c'

/-- Two cells of one row, column or box hold the same non-blank value. -/
def has_duplicate (N : Nat) (b : board) : Prop :=
  ∃ r < N * N, ∃ c < N * N, ∃ r' < N * N, ∃ c' < N * N,
    (r ≠ r' ∨ c ≠ c') ∧ same_unit N r c r' c' ∧ cell b r c ≠ 0 ∧ cell b r c = cell b r' c'

/-- What a call of `solve_sudoku` on the working grid `g` guarantees when it returns `res`
and leaves the working grid `fin`: a failed call has restored the grid, a successful call
returns the working grid, which is a board the search can end in from `g`. -/
def search_post (N : Nat) (g : board) (res : Option board) (fin : board) : Prop :=
  WF N fin ∧ (res = none → fin = g) ∧
  ∀ out, res = some out → out = fin ∧ search_completion N g out

/-- Specification device, not part of the program: every board the search can end in,
obtained by following all legal candidates at the first blank cell instead of stopping at
the first success. -/
def completions (N : Nat) : Nat → board → List board
  | 0, _ => []
  | fuel + 1, g =>
    match find_blank N g with
    | none => [g]
    | some (row, col) =>
      (List.range' 1 (N * N)).flatMap fun value =>
        if is_valid_placement N g row col value then
          completions N fuel (set_cell g row col value)
        else []

/-- Specification device, not part of the program: the same enumeration, branching on the
cells of a given list in turn (any blank cell may be decided first) and falling back on
`completions` when the list is used up. -/
def completions_along (N : Nat) : List (Nat × Nat) → board → List board
  | [], g => completions N (count_blank g + 1) g
  | (row, col) :: rest, g =>
    if row < N * N ∧ col < N * N ∧ cell g row col = 0 then
      (List.range' 1 (N * N)).flatMap fun value =>
        if is_valid_placement N g row col value then
          completions_along N rest (set_cell g row col value)
        else []
    else completions_along N rest g

/-! ## Scenario data -/

/-- The board `b` of `solve_at_comptime` (lines 78-90). -/
def demo_puzzle : board :=
  [[0, 7, 2, 0, 0, 4, 9, 0, 0],
   [3, 0, 4, 0, 8, 9, 1, 0, 0],
   [8, 1, 9, 0, 0, 6, 2, 5, 4],
   [7, 0, 1, 0, 0, 0, 0, 9, 5],
   [9, 0, 0, 0, 0, 2, 0, 7, 0],
   [0, 0, 0, 8, 0, 7, 0, 1, 2],
   [4, 0, 5, 0, 0, 1, 6, 2, 0],
   [2, 3, 7, 0, 0, 0, 5, 0, 1],
   [0, 0, 0, 0, 2, 5, 7, 0, 0]]

/-- The grid that `get_solved` returns for `demo_puzzle`. -/
def demo_solution : board :=
  [[6, 7, 2, 1, 5, 4, 9, 3, 8],
   [3, 5, 4, 2, 8, 9, 1, 6, 7],
   [8, 1, 9, 3, 7, 6, 2, 5, 4],
   [7, 2, 1, 6, 4, 3, 8, 9, 5],
   [9, 4, 8, 5, 1, 2, 3, 7, 6],
   [5, 6, 3, 8, 9, 7, 4, 1, 2],
   [4, 8, 5, 7, 3, 1, 6, 2, 9],
   [2, 3, 7, 9, 6, 8, 5, 4, 1],
   [1, 9, 6, 4, 2, 5, 7, 8, 3]]

/-- Another completion of `demo_puzzle`: `demo_solution` with `3` and `7` exchanged in rows
2 and 6, columns 3 and 4. -/
def demo_alternative : board :=
  [[6, 7, 2, 1, 5, 4, 9, 3, 8],
   [3, 5, 4, 2, 8, 9, 1, 6, 7],
   [8, 1, 9, 7, 3, 6, 2, 5, 4],
   [7, 2, 1, 6, 4, 3, 8, 9, 5],
   [9, 4, 8, 5, 1, 2, 3, 7, 6],
   [5, 6, 3, 8, 9, 7, 4, 1, 2],
   [4, 8, 5, 3, 7, 1, 6, 2, 9],
   [2, 3, 7, 9, 6, 8, 5, 4, 1],
   [1, 9, 6, 4, 2, 5, 7, 8, 3]]

/-- An order on the blank cells of `demo_puzzle` along which the enumeration branches
little. -/
def demo_order : List (Nat × Nat) :=
  [(1, 7), (1, 1), (0, 0), (1, 8), (1, 3), (3, 5), (5, 0), (7, 5), (7, 7), (8, 0), (0, 7),
   (0, 8), (8, 7), (8, 2), (5, 2), (4, 2), (5, 6), (3, 6), (4, 6), (4, 8), (4, 1), (5, 1),
   (3, 1), (5, 4), (7, 4), (3, 4), (3, 3), (7, 3), (8, 1), (6, 1), (8, 8), (6, 8), (8, 3),
   (0, 3), (0, 4), (4, 3), (4, 4), (2, 3), (2, 4), (6, 3), (6, 4)]

/-- The sixteen completions of `demo_puzzle`, in the order the enumeration along
`demo_order` meets them. -/
def demo_completions : List board :=
  [[[6, 7, 2, 1, 5, 4, 9, 3, 8],
    [3, 5, 4, 2, 8, 9, 1, 6, 7],
    [8, 1, 9, 3, 7, 6, 2, 5, 4],
    [7, 2, 1, 6, 4, 3, 8, 9, 5],
    [9, 4, 8, 5, 1, 2, 3, 7, 6],
    [5, 6, 3, 8, 9, 7, 4, 1, 2],
    [4, 8, 5, 7, 3, 1, 6, 2, 9],
    [2, 3, 7, 9, 6, 8, 5, 4, 1],
    [1, 9, 6, 4, 2, 5, 7, 8, 3]],
   [[6, 7, 2, 1, 5, 4, 9, 3, 8],
    [3, 5, 4, 2, 8, 9, 1, 6, 7],
    [8, 1, 9, 7, 3, 6, 2, 5, 4],
    [7, 2, 1, 6, 4, 3, 8, 9, 5],
    [9, 4, 8, 5, 1, 2, 3, 7, 6],
    [5, 6, 3, 8, 9, 7, 4, 1, 2],
    [4, 8, 5, 3, 7, 1, 6, 2, 9],
    [2, 3, 7, 9, 6, 8, 5, 4, 1],
    [1, 9, 6, 4, 2, 5, 7, 8, 3]],
   [[6, 7, 2, 5, 1, 4, 9, 3, 8],
    [3, 5, 4, 2, 8, 9, 1, 6, 7],
    [8, 1, 9, 3, 7, 6, 2, 5, 4],
    [7, 2, 1, 6, 4, 3, 8, 9, 5],
    [9, 4, 8, 1, 5, 2, 3, 7, 6],
    [5, 6, 3, 8, 9, 7, 4, 1, 2],
    [4, 8, 5, 7, 3, 1, 6, 2, 9],
    [2, 3, 7, 9, 6, 8, 5, 4, 1],
    [1, 9, 6, 4, 2, 5, 7, 8, 3]],
   [[6, 7, 2, 5, 1, 4, 9, 3, 8],
    [3, 5, 4, 2, 8, 9, 1, 6, 7],
    [8, 1, 9, 7, 3, 6, 2, 5, 4],
    [7, 2, 1, 6, 4, 3, 8, 9, 5],
    [9, 4, 8, 1, 5, 2, 3, 7, 6],
    [5, 6, 3, 8, 9, 7, 4, 1, 2],
    [4, 8, 5, 3, 7, 1, 6, 2, 9],
    [2, 3, 7, 9, 6, 8, 5, 4, 1],
    [1, 9, 6, 4, 2, 5, 7, 8, 3]],
   [[6, 7, 2, 1, 5, 4, 9, 8, 3],
    [3, 5, 4, 2, 8, 9, 1, 6, 7],
    [8, 1, 9, 3, 7, 6, 2, 5, 4],
    [7, 2, 1, 6, 4, 3, 8, 9, 5],
    [9, 4, 8, 5, 1, 2, 3, 7, 6],
    [5, 6, 3, 8, 9, 7, 4, 1, 2],
    [4, 9, 5, 7, 3, 1, 6, 2, 8],
    [2, 3, 7, 9, 6, 8, 5, 4, 1],
    [1, 8, 6, 4, 2, 5, 7, 3, 9]],
   [[6, 7, 2, 1, 5, 4, 9, 8, 3],
    [3, 5, 4, 2, 8, 9, 1, 6, 7],
    [8, 1, 9, 7, 3, 6, 2, 5, 4],
    [7, 2, 1, 6, 4, 3, 8, 9, 5],
    [9, 4, 8, 5, 1, 2, 3, 7, 6],
    [5, 6, 3, 8, 9, 7, 4, 1, 2],
    [4, 9, 5, 3, 7, 1, 6, 2, 8],
    [2, 3, 7, 9, 6, 8, 5, 4, 1],
    [1, 8, 6, 4, 2, 5, 7, 3, 9]],
   [[6, 7, 2, 5, 1, 4, 9, 8, 3],
    [3, 5, 4, 2, 8, 9, 1, 6, 7],
    [8, 1, 9, 3, 7, 6, 2, 5, 4],
    [7, 2, 1, 6, 4, 3, 8, 9, 5],
    [9, 4, 8, 1, 5, 2, 3, 7, 6],
    [5, 6, 3, 8, 9, 7, 4, 1, 2],
    [4, 9, 5, 7, 3, 1, 6, 2, 8],
    [2, 3, 7, 9, 6, 8, 5, 4, 1],
    [1, 8, 6, 4, 2, 5, 7, 3, 9]],
   [[6, 7, 2, 5, 1, 4, 9, 8, 3],
    [3, 5, 4, 2, 8, 9, 1, 6, 7],
    [8, 1, 9, 7, 3, 6, 2, 5, 4],
    [7, 2, 1, 6, 4, 3, 8, 9, 5],
    [9, 4, 8, 1, 5, 2, 3, 7, 6],
    [5, 6, 3, 8, 9, 7, 4, 1, 2],
    [4, 9, 5, 3, 7, 1, 6, 2, 8],
    [2, 3, 7, 9, 6, 8, 5, 4, 1],
    [1, 8, 6, 4, 2, 5, 7, 3, 9]],
   [[6, 7, 2, 1, 5, 4, 9, 8, 3],
    [3, 5, 4, 2, 8, 9, 1, 6, 7],
    [8, 1, 9, 3, 7, 6, 2, 5, 4],
    [7, 2, 1, 6, 4, 3, 8, 9, 5],
    [9, 4, 8, 5, 1, 2, 3, 7, 6],
    [5, 6, 3, 8, 9, 7, 4, 1, 2],
    [4, 8, 5, 7, 3, 1, 6, 2, 9],
    [2, 3, 7, 9, 6, 8, 5, 4, 1],
    [1, 9, 6, 4, 2, 5, 7, 3, 8]],
   [[6, 7, 2, 1, 5, 4, 9, 8, 3],
    [3, 5, 4, 2, 8, 9, 1, 6, 7],
    [8, 1, 9, 7, 3, 6, 2, 5, 4],
    [7, 2, 1, 6, 4, 3, 8, 9, 5],
    [9, 4, 8, 5, 1, 2, 3, 7, 6],
    [5, 6, 3, 8, 9, 7, 4, 1, 2],
    [4, 8, 5, 3, 7, 1, 6, 2, 9],
    [2, 3, 7, 9, 6, 8, 5, 4, 1],
    [1, 9, 6, 4, 2, 5, 7, 3, 8]],
   [[6, 7, 2, 5, 1, 4, 9, 8, 3],
    [3, 5, 4, 2, 8, 9, 1, 6, 7],
    [8, 1, 9, 3, 7, 6, 2, 5, 4],
    [7, 2, 1, 6, 4, 3, 8, 9, 5],
    [9, 4, 8, 1, 5, 2, 3, 7, 6],
    [5, 6, 3, 8, 9, 7, 4, 1, 2],
    [4, 8, 5, 7, 3, 1, 6, 2, 9],
    [2, 3, 7, 9, 6, 8, 5, 4, 1],
    [1, 9, 6, 4, 2, 5, 7, 3, 8]],
   [[6, 7, 2, 5, 1, 4, 9, 8, 3],
    [3, 5, 4, 2, 8, 9, 1, 6, 7],
    [8, 1, 9, 7, 3, 6, 2, 5, 4],
    [7, 2, 1, 6, 4, 3, 8, 9, 5],
    [9, 4, 8, 1, 5, 2, 3, 7, 6],
    [5, 6, 3, 8, 9, 7, 4, 1, 2],
    [4, 8, 5, 3, 7, 1, 6, 2, 9],
    [2, 3, 7, 9, 6, 8, 5, 4, 1],
    [1, 9, 6, 4, 2, 5, 7, 3, 8]],
   [[6, 7, 2, 1, 5, 4, 9, 8, 3],
    [3, 5, 4, 2, 8, 9, 1, 6, 7],
    [8, 1, 9, 3, 7, 6, 2, 5, 4],
    [7, 2, 1, 6, 4, 3, 8, 9, 5],
    [9, 8, 3, 5, 1, 2, 4, 7, 6],
    [5, 4, 6, 8, 9, 7, 3, 1, 2],
    [4, 9, 5, 7, 3, 1, 6, 2, 8],
    [2, 3, 7, 9, 6, 8, 5, 4, 1],
    [1, 6, 8, 4, 2, 5, 7, 3, 9]],
   [[6, 7, 2, 1, 5, 4, 9, 8, 3],
    [3, 5, 4, 2, 8, 9, 1, 6, 7],
    [8, 1, 9, 7, 3, 6, 2, 5, 4],
    [7, 2, 1, 6, 4, 3, 8, 9, 5],
    [9, 8, 3, 5, 1, 2, 4, 7, 6],
    [5, 4, 6, 8, 9, 7, 3, 1, 2],
    [4, 9, 5, 3, 7, 1, 6, 2, 8],
    [2, 3, 7, 9, 6, 8, 5, 4, 1],
    [1, 6, 8, 4, 2, 5, 7, 3, 9]],
   [[6, 7, 2, 5, 1, 4, 9, 8, 3],
    [3, 5, 4, 2, 8, 9, 1, 6, 7],
    [8, 1, 9, 3, 7, 6, 2, 5, 4],
    [7, 2, 1, 6, 4, 3, 8, 9, 5],
    [9, 8, 3, 1, 5, 2, 4, 7, 6],
    [5, 4, 6, 8, 9, 7, 3, 1, 2],
    [4, 9, 5, 7, 3, 1, 6, 2, 8],
    [2, 3, 7, 9, 6, 8, 5, 4, 1],
    [1, 6, 8, 4, 2, 5, 7, 3, 9]],
   [[6, 7, 2, 5, 1, 4, 9, 8, 3],
    [3, 5, 4, 2, 8, 9, 1, 6, 7],
    [8, 1, 9, 7, 3, 6, 2, 5, 4],
    [7, 2, 1, 6, 4, 3, 8, 9, 5],
    [9, 8, 3, 1, 5, 2, 4, 7, 6],
    [5, 4, 6, 8, 9, 7, 3, 1, 2],
    [4, 9, 5, 3, 7, 1, 6, 2, 8],
    [2, 3, 7, 9, 6, 8, 5, 4, 1],
    [1, 6, 8, 4, 2, 5, 7, 3, 9]]]

/-- The 4 × 4 scenario: a duplicate in row 0, every other cell blank. -/
def duplicate_row_grid : board :=
  [[1, 1, 0, 0],
   [0, 0, 0, 0],
   [0, 0, 0, 0],
   [0, 0, 0, 0]]

/-- A 4 × 4 grid with a duplicate in row 0 and a single blank cell, at `(3, 3)`. -/
def duplicate_one_blank : board :=
  [[2, 2, 3, 4],
   [3, 4, 1, 2],
   [2, 1, 4, 3],
   [4, 3, 2, 0]]

/-- The grid `duplicate_one_blank` with its blank cell filled by `1`. -/
def duplicate_filled : board :=
  [[2, 2, 3, 4],
   [3, 4, 1, 2],
   [2, 1, 4, 3],
   [4, 3, 2, 1]]

/-- A consistent 4 × 4 puzzle. -/
def small_puzzle : board :=
  [[1, 0, 3, 4],
   [3, 4, 0, 2],
   [0, 1, 4, 3],
   [4, 3, 2, 0]]

/-- The completion of `small_puzzle`. -/
def small_solution : board :=
  [[1, 2, 3, 4],
   [3, 4, 1, 2],
   [2, 1, 4, 3],
   [4, 3, 2, 1]]

instance (N : Nat) (b : board) : Decidable (WF N b) := by
  unfold WF; infer_instance

instance (N : Nat) (b : board) : Decidable (in_range N b) := by
  unfold in_range; infer_instance

instance (N : Nat) (b : board) : Decidable (filled N b) := by
  unfold filled; infer_instance

instance (N : Nat) (b : board) : Decidable (no_blank N b) := by
  unfold no_blank; infer_instance

instance (N r c r' c' : Nat) : Decidable (same_unit N r c r' c') := by
  unfold same_unit; infer_instance

set_option synthInstance.maxSize 1000 in
set_option synthInstance.maxHeartbeats 200000 in
instance (N : Nat) (b : board) : Decidable (consistent N b) := by
  unfold consistent; infer_instance

instance (N : Nat) (g h : board) : Decidable (agrees N g h) := by
  unfold agrees; infer_instance

set_option synthInstance.maxSize 1000 in
set_option synthInstance.maxHeartbeats 200000 in
instance (N : Nat) (b : board) : Decidable (has_duplicate N b) := by
  unfold has_duplicate; infer_instance

/-- The 1 × 1 grid whose single cell is blank. -/
def single_blank : board := [[0]]

/-- A 4 × 4 grid on which the search places `4` at `(3, 0)`, finds no candidate for
`(3, 3)` and gives up. -/
def dead_end_grid : board :=
  [[1, 2, 3, 4],
   [3, 4, 1, 2],
   [2, 1, 4, 1],
   [0, 3, 2, 0]]

/-- A 4 × 4 puzzle with two valid completions. -/
def two_way_puzzle : board :=
  [[0, 2, 0, 4],
   [0, 4, 0, 2],
   [2, 1, 4, 3],
   [4, 3, 2, 1]]

/-- The lexicographically larger completion of `two_way_puzzle`. -/
def two_way_larger : board :=
  [[3, 2, 1, 4],
   [1, 4, 3, 2],
   [2, 1, 4, 3],
   [4, 3, 2, 1]]

/-! ## Row-major lexicographic order -/

/-- The cell `(r, c)` comes before the cell `(r', c')` in row-major order. -/
def before (r c r' c' : Nat) : Prop := r < r' ∨ (r = r' ∧ c < c')

/-- The board `a` is lexicographically smaller than `b` when the cells are compared in
row-major order: at the first cell where they differ, `a` holds the smaller value. -/
def lex_lt (N : Nat) (a b : board) : Prop :=
  ∃ r < N * N, ∃ c < N * N, cell a r c < cell b r c ∧
    ∀ r' < N * N, ∀ c' < N * N, before r' c' r c → cell a r' c' = cell b r' c'

/-- The board `a` is lexicographically smaller than or equal to `b`. -/
def lex_le (N : Nat) (a b : board) : Prop :=
  (∀ r < N * N, ∀ c < N * N, cell a r c = cell b r c) ∨ lex_lt N a b

/-! ## The constructor from a vector -/

/-- The constructor `sudoku_solver(std::vector<std::vector<T>> const &v)` (lines 59-65): the
two loops copy `v[i][j]` into `b[i][j]` for `i, j < MAX`.  The source has no dimension check
and no error path.  The result is `none` for an input on which some read `v[i][j]` lies
outside the vector, where `operator[]` has no defined behaviour. -/
def sudoku_solver_of_vector (N : Nat) (v : List (List Nat)) : Option board :=
  if ∀ i < N * N, ∀ j < N * N, i < v.length ∧ j < (v.getD i []).length then
    some ((List.range (N * N)).map fun i =>
      (List.range (N * N)).map fun j => (v.getD i []).getD j 0)
  else none

/-- A nested collection for side 1 with one row too many and a row too long. -/
def oversized_vector : List (List Nat) := [[7, 8], [9]]

/-- A nested collection for side 1 with a second, empty row. -/
def vector_with_short_row : List (List Nat) := [[7], []]

/-! ## The solver with every array access checked -/

/-- The read `b[row][col]` with the bounds of the array checked: `none` outside the grid. -/
def cell_checked (N : Nat) (b : board) (row col : Nat) : Option Nat :=
  if row < N * N ∧ col < N * N then some (cell b row col) else none

/-- The write `b[row][col] = value` with the bounds of the array checked. -/
def set_cell_checked (N : Nat) (b : board) (row col value : Nat) : Option board :=
  if row < N * N ∧ col < N * N then some (set_cell b row col value) else none

/-- The loop of `is_valid_placement` with its three reads per iteration checked; `none` when
a read is outside the grid. -/
def is_valid_placement_checked (N : Nat) (solution : board) (row col possible_value : Nat) :
    Option Bool :=
  (List.range (N * N)).foldr (fun i rest =>
    match cell_checked N solution row i, cell_checked N solution i col,
        cell_checked N solution (N * (row / N) + i / N) (N * (col / N) + i % N) with
    | some x, some y, some z =>
      if x == possible_value || y == possible_value || z == possible_value then some false
      else rest
    | _, _, _ => none) (some true)

/-- The scanning loops of `solve_sudoku` with the read of every visited cell checked. -/
def find_blank_checked (N : Nat) (solution : board) : Option (Option (Nat × Nat)) :=
  (List.range (N * N)).foldr (fun row later_rows =>
    (List.range (N * N)).foldr (fun col later =>
      match cell_checked N solution row col with
      | some x => if x = 0 then some (some (row, col)) else later
      | none => none) later_rows) (some none)

/-- The candidate loop of `solve_sudoku` with the placement check and both writes checked.
The outermost `none` is an access outside the grid. -/
def try_values_checked (N : Nat)
    (recurse : board → Option (Option (Option board × board))) (row col : Nat) :
    List Nat → board → Option (Option (Option board × board))
  | [], solution => some (some (none, solution))
  | value :: rest, solution =>
    match is_valid_placement_checked N solution row col value with
    | none => none
    | some false => try_values_checked N recurse row col rest solution
    | some true =>
      match set_cell_checked N solution row col value with
      | none => none
      | some placed =>
        match recurse placed with
        | none => none
        | some none => some none
        | some (some (some _, s)) => some (some (some s, s))
        | some (some (none, s)) =>
          match set_cell_checked N s row col 0 with
          | none => none
          | some reverted => try_values_checked N recurse row col rest reverted

/-- The member `solve_sudoku` with every array access checked. -/
def solve_sudoku_checked (N : Nat) : Nat → board → Option (Option (Option board × board))
  | 0, _ => some none
  | fuel + 1, solution =>
    match find_blank_checked N solution with
    | none => none
    | some (some (row, col)) =>
      try_values_checked N (solve_sudoku_checked N fuel) row col (List.range' 1 (N * N))
        solution
    | some none => some (some (some solution, solution))


/-! ## Basic facts about reads and writes -/

theorem cell_set_cell_ne (b : board) (r c v r' c' : Nat) (h : r' ≠ r ∨ c' ≠ c) :
    cell (set_cell b r c v) r' c' = cell b r' c' := by
  unfold cell set_cell
  by_cases hr : r' = r
  · subst hr
    have hc : c' ≠ c := by
      rcases h with h | h
      · exact absurd rfl h
      · exact h
    simp only [List.getD_eq_getElem?_getD]
    by_cases hlt : r' < b.length
    · simp [List.getElem?_set, hlt, Ne.symm hc]
    · have hn : b[r']? = none := by simp; omega
      simp [List.getElem?_set, hlt, hn]
  · simp only [List.getD_eq_getElem?_getD]
    rw [List.getElem?_set_ne (Ne.symm hr)]

theorem cell_set_cell_eq (b : board) (r c v : Nat) (hr : r < b.length)
    (hc : c < (b.getD r []).length) :
    cell (set_cell b r c v) r c = v := by
  unfold cell set_cell
  simp only [List.getD_eq_getElem?_getD] at hc ⊢
  have hs : b[r]? = some b[r] := by simp [hr]
  rw [hs] at hc
  simp only [Option.getD_some] at hc
  simp [List.getElem?_set, hr, hc]

theorem WF_row_length {N : Nat} {b : board} (hb : WF N b) {r : Nat} (hr : r < N * N) :
    (b.getD r []).length = N * N := by
  have hlt : r < b.length := by rw [hb.1]; exact hr
  have hs : b[r]? = some b[r] := by simp [hlt]
  simp only [List.getD_eq_getElem?_getD, hs, Option.getD_some]
  exact hb.2 _ (List.getElem_mem hlt)

theorem cell_set_cell_same {N : Nat} {b : board} (hb : WF N b) {r c : Nat} (v : Nat)
    (hr : r < N * N) (hc : c < N * N) : cell (set_cell b r c v) r c = v := by
  apply cell_set_cell_eq
  · rw [hb.1]; exact hr
  · rw [WF_row_length hb hr]; exact hc

theorem WF_set_cell {N : Nat} {b : board} (hb : WF N b) (r c v : Nat) :
    WF N (set_cell b r c v) := by
  unfold set_cell
  refine ⟨by rw [List.length_set]; exact hb.1, ?_⟩
  intro x hx
  rcases List.mem_or_eq_of_mem_set hx with h | h
  · exact hb.2 x h
  · subst h
    rw [List.length_set]
    by_cases hr : r < b.length
    · have hs : b[r]? = some b[r] := by simp [hr]
      simp only [List.getD_eq_getElem?_getD, hs, Option.getD_some]
      exact hb.2 _ (List.getElem_mem hr)
    · exfalso
      rw [List.set_eq_of_length_le (by omega)] at hx
      have hn : b[r]? = none := by simp; omega
      simp only [List.getD_eq_getElem?_getD, hn, Option.getD_none] at hx
      have := hb.2 _ hx
      simp only [List.length_set, List.length_nil] at this
      have h0 : N = 0 := by
        rcases Nat.eq_zero_or_pos N with h | h
        · exact h
        · have : 0 < N * N := Nat.mul_pos h h
          omega
      subst h0
      have hl := hb.1
      simp only [Nat.mul_zero, List.length_eq_zero] at hl
      subst hl
      simp at hx

/-- Boards of the same dimensions with the same cells are equal. -/
theorem board_ext {N : Nat} {b b' : board} (hb : WF N b) (hb' : WF N b')
    (h : ∀ r < N * N, ∀ c < N * N, cell b r c = cell b' r c) : b = b' := by
  apply List.ext_getElem (by rw [hb.1, hb'.1])
  intro r h1 h2
  have hr : r < N * N := by rw [← hb.1]; exact h1
  have l1 : (b[r]).length = N * N := hb.2 _ (List.getElem_mem h1)
  have l2 : (b'[r]).length = N * N := hb'.2 _ (List.getElem_mem h2)
  apply List.ext_getElem (by rw [l1, l2])
  intro c h3 h4
  have hc : c < N * N := by rw [← l1]; exact h3
  have := h r hr c hc
  unfold cell at this
  have hs : b[r]? = some b[r] := by simp [h1]
  have hs' : b'[r]? = some b'[r] := by simp [h2]
  have hs2 : (b[r])[c]? = some (b[r])[c] := by simp [h3]
  have hs3 : (b'[r])[c]? = some (b'[r])[c] := by simp [h4]
  simpa only [List.getD_eq_getElem?_getD, hs, hs', hs2, hs3, Option.getD_some] using this

theorem sum_map_set (f : List Nat → Nat) :
    ∀ (l : List (List Nat)) (i : Nat) (a : List Nat) (h : i < l.length),
      ((l.set i a).map f).sum + f l[i] = (l.map f).sum + f a
  | [], i, a, h => by simp at h
  | x :: l, 0, a, h => by simp; omega
  | x :: l, i + 1, a, h => by
    have := sum_map_set f l i a (by simpa using h)
    simp only [List.set_cons_succ, List.map_cons, List.sum_cons, List.getElem_cons_succ]
    omega

theorem count_zero_set (row : List Nat) (c v : Nat) (hc : c < row.length)
    (h0 : row[c] = 0) (hv : v ≠ 0) : (row.set c v).count 0 + 1 = row.count 0 := by
  rw [List.count_set _ _ _ _ hc]
  have hpos : 0 < row.count 0 := by
    apply List.count_pos_iff.mpr
    rw [← h0]; exact List.getElem_mem hc
  simp [h0, hv]
  omega

/-- Filling a blank cell with a non-zero value removes exactly one blank. -/
theorem count_blank_set_cell {N : Nat} {b : board} (hb : WF N b) {r c v : Nat}
    (hr : r < N * N) (hc : c < N * N) (h0 : cell b r c = 0) (hv : v ≠ 0) :
    count_blank (set_cell b r c v) + 1 = count_blank b := by
  have hlt : r < b.length := by rw [hb.1]; exact hr
  have hs : b[r]? = some b[r] := by simp [hlt]
  have hlen : (b[r]).length = N * N := hb.2 _ (List.getElem_mem hlt)
  have hc2 : c < (b[r]).length := by rw [hlen]; exact hc
  have hs2 : (b[r])[c]? = some (b[r])[c] := by simp [hc2]
  have h0e : (b[r])[c] = 0 := by
    unfold cell at h0
    simpa only [List.getD_eq_getElem?_getD, hs, hs2, Option.getD_some] using h0
  unfold count_blank set_cell
  simp only [List.getD_eq_getElem?_getD, hs, Option.getD_some]
  have h1 := sum_map_set (fun r => r.count 0) b r ((b[r]).set c v) hlt
  have h2 := count_zero_set (b[r]) c v hc2 h0e hv
  simp only at h1
  omega

/-! ## The scanning loops and the placement check -/

theorem find_blank_eq_none {N : Nat} {b : board} :
    find_blank N b = none ↔ no_blank N b := by
  unfold find_blank no_blank
  simp only [List.findSome?_eq_none_iff, List.mem_range]
  constructor
  · intro h r hr c hc h0
    have := h r hr c hc
    simp [h0] at this
  · intro h r hr c hc
    simp [h r hr c hc]

theorem find_blank_eq_some {N : Nat} {b : board} {r c : Nat}
    (h : find_blank N b = some (r, c)) : r < N * N ∧ c < N * N ∧ cell b r c = 0 := by
  unfold find_blank at h
  obtain ⟨row, hrow, hin⟩ := List.exists_of_findSome?_eq_some h
  obtain ⟨col, hcol, hif⟩ := List.exists_of_findSome?_eq_some hin
  rw [List.mem_range] at hrow hcol
  by_cases h0 : cell b row col = 0
  · simp only [h0, if_true, Option.some.injEq, Prod.mk.injEq] at hif
    obtain ⟨rfl, rfl⟩ := hif
    exact ⟨hrow, hcol, h0⟩
  · simp [h0] at hif

theorem div_lt_of_lt_sq {N r : Nat} (hr : r < N * N) : r / N < N := by
  rcases Nat.eq_zero_or_pos N with h | h
  · subst h; simp at hr
  · exact (Nat.div_lt_iff_lt_mul h).mpr hr

theorem box_row_lt {N q k : Nat} (hq : q < N) (hk : k < N) : N * q + k < N * N := by
  calc N * q + k < N * q + N := by omega
    _ = N * (q + 1) := by ring
    _ ≤ N * N := Nat.mul_le_mul_left N hq

theorem box_row_div {N q k : Nat} (hk : k < N) : (N * q + k) / N = q := by
  have hN : 0 < N := by omega
  rw [Nat.mul_add_div hN, Nat.div_eq_of_lt hk, Nat.add_zero]

theorem box_index_lt {N a b : Nat} (ha : a < N) (hb : b < N) : a * N + b < N * N := by
  calc a * N + b < a * N + N := by omega
    _ = (a + 1) * N := by ring
    _ ≤ N * N := Nat.mul_le_mul_right N ha

theorem box_index_div {N a b : Nat} (hb : b < N) : (a * N + b) / N = a := by
  have hN : 0 < N := by omega
  rw [Nat.add_comm, Nat.add_mul_div_right _ _ hN, Nat.div_eq_of_lt hb, Nat.zero_add]

theorem box_index_mod {N a b : Nat} (hb : b < N) : (a * N + b) % N = b := by
  rw [Nat.add_comm, Nat.add_mul_mod_self_right, Nat.mod_eq_of_lt hb]

/-- The placement check fails exactly when the value occurs in the row, the column or the
box of the cell. -/
theorem placement_false_iff {N : Nat} (hN : 0 < N) (b : board) (row col v : Nat) :
    is_valid_placement N b row col v = false ↔
      (∃ c < N * N, cell b row c = v) ∨ (∃ r < N * N, cell b r col = v) ∨
      (∃ r c, r / N = row / N ∧ c / N = col / N ∧ cell b r c = v) := by
  unfold is_valid_placement
  simp only [List.all_eq_false, List.mem_range, Bool.not_eq_true, Bool.not_eq_false_eq_eq_true,
    Bool.or_eq_true, beq_iff_eq, Bool.not_not]
  constructor
  · rintro ⟨i, hi, (h | h) | h⟩
    · exact Or.inl ⟨i, hi, h⟩
    · exact Or.inr (Or.inl ⟨i, hi, h⟩)
    · refine Or.inr (Or.inr ⟨_, _, ?_, ?_, h⟩)
      · exact box_row_div (div_lt_of_lt_sq hi)
      · exact box_row_div (Nat.mod_lt _ hN)
  · rintro (⟨c, hc, h⟩ | ⟨r, hr, h⟩ | ⟨r, c, h1, h2, h⟩)
    · exact ⟨c, hc, Or.inl (Or.inl h)⟩
    · exact ⟨r, hr, Or.inl (Or.inr h)⟩
    · have ha : r % N < N := Nat.mod_lt _ hN
      have hb : c % N < N := Nat.mod_lt _ hN
      refine ⟨r % N * N + c % N, box_index_lt ha hb, Or.inr ?_⟩
      rw [box_index_div hb, box_index_mod hb, ← h1, ← h2, Nat.div_add_mod, Nat.div_add_mod]
      exact h

theorem lt_sq_of_div_eq {N r row : Nat} (hrow : row < N * N) (h : r / N = row / N) :
    r < N * N := by
  have hN : 0 < N := by
    rcases Nat.eq_zero_or_pos N with h0 | h0
    · subst h0; simp at hrow
    · exact h0
  have h1 : r / N < N := by rw [h]; exact div_lt_of_lt_sq hrow
  exact (Nat.div_lt_iff_lt_mul hN).mp h1

theorem same_unit_symm {N r c r' c' : Nat} (h : same_unit N r c r' c') :
    same_unit N r' c' r c := by
  rcases h with h | h | ⟨h1, h2⟩
  · exact Or.inl h.symm
  · exact Or.inr (Or.inl h.symm)
  · exact Or.inr (Or.inr ⟨h1.symm, h2.symm⟩)

/-- The placement check succeeds exactly when no cell of the grid that shares a row, a
column or a box with the cell holds the value. -/
theorem placement_true_iff {N : Nat} (b : board) {row col : Nat} (v : Nat)
    (hrow : row < N * N) (hcol : col < N * N) :
    is_valid_placement N b row col v = true ↔
      ∀ r < N * N, ∀ c < N * N, same_unit N row col r c → cell b r c ≠ v := by
  have hN : 0 < N := by
    rcases Nat.eq_zero_or_pos N with h0 | h0
    · subst h0; simp at hrow
    · exact h0
  constructor
  · intro ht r hr c hc hu he
    have hf : is_valid_placement N b row col v = false := by
      rw [placement_false_iff hN]
      rcases hu with h | h | ⟨h1, h2⟩
      · subst h; exact Or.inl ⟨c, hc, he⟩
      · subst h; exact Or.inr (Or.inl ⟨r, hr, he⟩)
      · exact Or.inr (Or.inr ⟨r, c, h1.symm, h2.symm, he⟩)
    rw [ht] at hf
    exact Bool.noConfusion hf
  · intro h
    by_contra hne
    have hf : is_valid_placement N b row col v = false := by
      simpa using hne
    rw [placement_false_iff hN] at hf
    rcases hf with ⟨c, hc, he⟩ | ⟨r, hr, he⟩ | ⟨r, c, h1, h2, he⟩
    · exact h row hrow c hc (Or.inl rfl) he
    · exact h r hr col hcol (Or.inr (Or.inl rfl)) he
    · exact h r (lt_sq_of_div_eq hrow h1) c (lt_sq_of_div_eq hcol h2)
        (Or.inr (Or.inr ⟨h1.symm, h2.symm⟩)) he

/-! ## Invariants of the search -/

/-- Resetting a tentatively filled blank cell gives back the grid. -/
theorem set_cell_undo {N : Nat} {g : board} (hg : WF N g) {row col : Nat} (v : Nat)
    (hrow : row < N * N) (hcol : col < N * N) (h0 : cell g row col = 0) :
    set_cell (set_cell g row col v) row col 0 = g := by
  apply board_ext (WF_set_cell (WF_set_cell hg _ _ _) _ _ _) hg
  intro r hr c hc
  by_cases h : r = row ∧ c = col
  · obtain ⟨rfl, rfl⟩ := h
    rw [cell_set_cell_same (WF_set_cell hg _ _ _) 0 hr hc, h0]
  · have h2 : r ≠ row ∨ c ≠ col := not_and_or.mp h
    rw [cell_set_cell_ne _ _ _ _ _ _ h2, cell_set_cell_ne _ _ _ _ _ _ h2]

/-- A board the search can end in from the grid with one more cell placed legally is one
it can end in from the grid itself. -/
theorem search_completion_of_set {N : Nat} {g s : board} (hg : WF N g) {row col v : Nat}
    (hrow : row < N * N) (hcol : col < N * N) (h0 : cell g row col = 0)
    (hv1 : 1 ≤ v) (hv2 : v ≤ N * N) (hvalid : is_valid_placement N g row col v = true)
    (hs : search_completion N (set_cell g row col v) s) : search_completion N g s := by
  have hag : agrees N g s := by
    intro r hr c hc hne
    have h2 : r ≠ row ∨ c ≠ col := by
      by_contra hcon
      have hcon2 := not_or.mp hcon
      have e1 : r = row := not_not.mp hcon2.1
      have e2 : c = col := not_not.mp hcon2.2
      subst e1; subst e2
      exact hne h0
    have := hs.1 r hr c hc (by rw [cell_set_cell_ne _ _ _ _ _ _ h2]; exact hne)
    rw [this, cell_set_cell_ne _ _ _ _ _ _ h2]
  have hsv : cell s row col = v := by
    have := hs.1 row hrow col hcol (by rw [cell_set_cell_same hg v hrow hcol]; omega)
    rw [this, cell_set_cell_same hg v hrow hcol]
  refine ⟨hag, ?_⟩
  intro r hr c hc hz
  by_cases h : r = row ∧ c = col
  · obtain ⟨rfl, rfl⟩ := h
    rw [hsv]
    refine ⟨⟨hv1, hv2⟩, ?_⟩
    intro r' hr' c' hc' hd hu
    have hd2 : r' ≠ r ∨ c' ≠ c := by
      rcases hd with h | h
      · exact Or.inl (Ne.symm h)
      · exact Or.inr (Ne.symm h)
    by_cases hz' : cell g r' c' = 0
    · have hz2 : cell (set_cell g r c v) r' c' = 0 := by
        rw [cell_set_cell_ne _ _ _ _ _ _ hd2]; exact hz'
      have := (hs.2 r' hr' c' hc' hz2).2 r hr c hc hd2 (same_unit_symm hu)
      rw [hsv] at this
      exact Ne.symm this
    · rw [hag r' hr' c' hc' hz']
      exact Ne.symm ((placement_true_iff g v hrow hcol).mp hvalid r' hr' c' hc' hu)
  · have h2 : r ≠ row ∨ c ≠ col := not_and_or.mp h
    exact hs.2 r hr c hc (by rw [cell_set_cell_ne _ _ _ _ _ _ h2]; exact hz)

/-- A board the search can end in from `g` is one it can end in after placing, at a blank
cell of `g`, the value that board holds there. -/
theorem search_completion_set {N : Nat} {g h : board} (hg : WF N g) {row col : Nat}
    (hrow : row < N * N) (hcol : col < N * N)
    (hh : search_completion N g h) :
    search_completion N (set_cell g row col (cell h row col)) h := by
  refine ⟨?_, ?_⟩
  · intro r hr c hc hne
    by_cases hrc : r = row ∧ c = col
    · obtain ⟨rfl, rfl⟩ := hrc
      rw [cell_set_cell_same hg _ hr hc]
    · have h2 : r ≠ row ∨ c ≠ col := not_and_or.mp hrc
      rw [cell_set_cell_ne _ _ _ _ _ _ h2] at hne ⊢
      exact hh.1 r hr c hc hne
  · intro r hr c hc hz
    by_cases hrc : r = row ∧ c = col
    · obtain ⟨rfl, rfl⟩ := hrc
      rw [cell_set_cell_same hg _ hr hc] at hz
      by_cases hg0 : cell g r c = 0
      · exact hh.2 r hr c hc hg0
      · have := hh.1 r hr c hc hg0
        rw [hz] at this
        exact absurd this.symm hg0
    · have h2 : r ≠ row ∨ c ≠ col := not_and_or.mp hrc
      rw [cell_set_cell_ne _ _ _ _ _ _ h2] at hz
      exact hh.2 r hr c hc hz

/-- A value the placement check rejects at a blank cell is not the value of any board the
search can end in. -/
theorem rejected_value_excluded {N : Nat} {g h : board} {row col v : Nat}
    (hrow : row < N * N) (hcol : col < N * N) (h0 : cell g row col = 0) (hv : v ≠ 0)
    (hh : search_completion N g h) (hrej : is_valid_placement N g row col v = false) :
    cell h row col ≠ v := by
  intro he
  have hnt : ¬ is_valid_placement N g row col v = true := by rw [hrej]; simp
  apply hnt
  rw [placement_true_iff g v hrow hcol]
  intro r hr c hc hu hgv
  have hne : cell g r c ≠ 0 := by rw [hgv]; exact hv
  have hd : row ≠ r ∨ col ≠ c := by
    by_contra hcon
    have hcon2 := not_or.mp hcon
    have e1 : row = r := not_not.mp hcon2.1
    have e2 : col = c := not_not.mp hcon2.2
    subst e1; subst e2
    exact hne h0
  have h1 := hh.1 r hr c hc hne
  have h2 := (hh.2 row hrow col hcol h0).2 r hr c hc hd hu
  rw [h1, hgv, he] at h2
  exact h2 rfl

theorem try_values_post {N : Nat} (recurse : board → Option (Option board × board))
    (hrec : ∀ g res fin, WF N g → recurse g = some (res, fin) → search_post N g res fin)
    {row col : Nat} (hrow : row < N * N) (hcol : col < N * N) :
    ∀ (vs : List Nat) (g : board), (∀ v ∈ vs, 1 ≤ v ∧ v ≤ N * N) → WF N g →
      cell g row col = 0 → ∀ res fin, try_values N recurse row col vs g = some (res, fin) →
      search_post N g res fin := by
  intro vs
  induction vs with
  | nil =>
    intro g _ hg _ res fin h
    simp only [try_values, Option.some.injEq, Prod.mk.injEq] at h
    obtain ⟨rfl, rfl⟩ := h
    exact ⟨hg, fun _ => rfl, fun out ho => Option.noConfusion ho⟩
  | cons v rest ih =>
    intro g hvs hg h0 res fin h
    have hrest : ∀ w ∈ rest, 1 ≤ w ∧ w ≤ N * N := fun w hw => hvs w (List.mem_cons_of_mem _ hw)
    have hv := hvs v (List.mem_cons_self _ _)
    simp only [try_values] at h
    by_cases hvalid : is_valid_placement N g row col v = true
    · simp only [hvalid, if_true] at h
      have hg1 : WF N (set_cell g row col v) := WF_set_cell hg _ _ _
      cases hr : recurse (set_cell g row col v) with
      | none => rw [hr] at h; cases h
      | some p =>
        obtain ⟨r1, s⟩ := p
        have hp := hrec _ _ _ hg1 hr
        rw [hr] at h
        cases r1 with
        | some x =>
          simp only [Option.some.injEq, Prod.mk.injEq] at h
          obtain ⟨rfl, rfl⟩ := h
          obtain ⟨hx, hsc⟩ := hp.2.2 x rfl
          subst hx
          refine ⟨hp.1, fun hn => Option.noConfusion hn, ?_⟩
          intro out ho
          cases ho
          exact ⟨rfl, search_completion_of_set hg hrow hcol h0 hv.1 hv.2 hvalid hsc⟩
        | none =>
          simp only at h
          have hs : s = set_cell g row col v := hp.2.1 rfl
          rw [hs, set_cell_undo hg v hrow hcol h0] at h
          exact ih g hrest hg h0 res fin h
    · simp only [hvalid] at h
      exact ih g hrest hg h0 res fin h

/-- A call of `solve_sudoku` that returns restores the grid on failure and returns a board
the search can end in on success. -/
theorem solve_sudoku_post {N : Nat} :
    ∀ (fuel : Nat) (g : board) (res : Option board) (fin : board), WF N g →
      solve_sudoku N fuel g = some (res, fin) → search_post N g res fin := by
  intro fuel
  induction fuel with
  | zero => intro g res fin _ h; simp [solve_sudoku] at h
  | succ fuel ih =>
    intro g res fin hg h
    simp only [solve_sudoku] at h
    cases hf : find_blank N g with
    | none =>
      rw [hf] at h
      simp only [Option.some.injEq, Prod.mk.injEq] at h
      obtain ⟨rfl, rfl⟩ := h
      refine ⟨hg, fun hn => Option.noConfusion hn, ?_⟩
      intro out ho
      cases ho
      have hnb := find_blank_eq_none.mp hf
      exact ⟨rfl, fun r hr c hc _ => rfl, fun r hr c hc hz => absurd hz (hnb r hr c hc)⟩
    | some p =>
      obtain ⟨row, col⟩ := p
      rw [hf] at h
      simp only at h
      obtain ⟨hrow, hcol, h0⟩ := find_blank_eq_some hf
      refine try_values_post (solve_sudoku N fuel) ih hrow hcol _ g ?_ hg h0 res fin h
      intro v hv
      rw [List.mem_range'_1] at hv
      omega

theorem try_values_exhaustive {N : Nat} (recurse : board → Option (Option board × board))
    (hrec : ∀ g res fin, WF N g → recurse g = some (res, fin) → search_post N g res fin)
    (hnone : ∀ g fin, WF N g → recurse g = some (none, fin) →
      ∀ h, ¬ search_completion N g h)
    {row col : Nat} (hrow : row < N * N) (hcol : col < N * N) {g : board} (hg : WF N g)
    (h0 : cell g row col = 0) :
    ∀ (vs : List Nat), (∀ v ∈ vs, v ≠ 0) → ∀ fin,
      try_values N recurse row col vs g = some (none, fin) →
      ∀ h, search_completion N g h → cell h row col ∉ vs := by
  intro vs
  induction vs with
  | nil => intro _ _ _ _ _; exact List.not_mem_nil _
  | cons v rest ih =>
    intro hvs fin ht h hh
    have hrest : ∀ w ∈ rest, w ≠ 0 := fun w hw => hvs w (List.mem_cons_of_mem _ hw)
    have hv := hvs v (List.mem_cons_self _ _)
    simp only [try_values] at ht
    have hg1 : WF N (set_cell g row col v) := WF_set_cell hg _ _ _
    by_cases hvalid : is_valid_placement N g row col v = true
    · simp only [hvalid, if_true] at ht
      cases hr : recurse (set_cell g row col v) with
      | none => rw [hr] at ht; cases ht
      | some p =>
        obtain ⟨r1, s⟩ := p
        have hp := hrec _ _ _ hg1 hr
        rw [hr] at ht
        cases r1 with
        | some x => simp at ht
        | none =>
          simp only at ht
          have hs : s = set_cell g row col v := hp.2.1 rfl
          rw [hs, set_cell_undo hg v hrow hcol h0] at ht
          have hnot := ih hrest fin ht h hh
          intro hmem
          rcases List.mem_cons.mp hmem with he | he
          · apply hnone _ _ hg1 hr h
            rw [← he]
            exact search_completion_set hg hrow hcol hh
          · exact hnot he
    · simp only [hvalid] at ht
      have hnot := ih hrest fin ht h hh
      have hf : is_valid_placement N g row col v = false := by simpa using hvalid
      intro hmem
      rcases List.mem_cons.mp hmem with he | he
      · exact rejected_value_excluded hrow hcol h0 hv hh hf he
      · exact hnot he

/-- A failed call of `solve_sudoku` means that the search can end in no board at all. -/
theorem solve_sudoku_exhaustive {N : Nat} :
    ∀ (fuel : Nat) (g : board) (fin : board), WF N g →
      solve_sudoku N fuel g = some (none, fin) → ∀ h, ¬ search_completion N g h := by
  intro fuel
  induction fuel with
  | zero => intro g fin _ h; simp [solve_sudoku] at h
  | succ fuel ih =>
    intro g fin hg h out hout
    simp only [solve_sudoku] at h
    cases hf : find_blank N g with
    | none => rw [hf] at h; simp at h
    | some p =>
      obtain ⟨row, col⟩ := p
      rw [hf] at h
      simp only at h
      obtain ⟨hrow, hcol, h0⟩ := find_blank_eq_some hf
      have hex := try_values_exhaustive (solve_sudoku N fuel)
        (fun g res fin hg hs => solve_sudoku_post fuel g res fin hg hs) ih hrow hcol hg h0
        (List.range' 1 (N * N)) (by intro v hv; rw [List.mem_range'_1] at hv; omega)
        fin h out hout
      apply hex
      rw [List.mem_range'_1]
      have := (hout.2 row hrow col hcol h0).1
      omega

theorem try_values_returns {N : Nat} (recurse : board → Option (Option board × board))
    (hrec : ∀ g res fin, WF N g → recurse g = some (res, fin) → search_post N g res fin)
    {row col : Nat} (hrow : row < N * N) (hcol : col < N * N) {g : board} (hg : WF N g)
    (h0 : cell g row col = 0)
    (htot : ∀ v, v ≠ 0 → ∃ p, recurse (set_cell g row col v) = some p) :
    ∀ (vs : List Nat), (∀ v ∈ vs, v ≠ 0) →
      ∃ p, try_values N recurse row col vs g = some p := by
  intro vs
  induction vs with
  | nil => intro _; exact ⟨_, rfl⟩
  | cons v rest ih =>
    intro hvs
    have hrest : ∀ w ∈ rest, w ≠ 0 := fun w hw => hvs w (List.mem_cons_of_mem _ hw)
    have hv := hvs v (List.mem_cons_self _ _)
    simp only [try_values]
    by_cases hvalid : is_valid_placement N g row col v = true
    · simp only [hvalid, if_true]
      obtain ⟨p, hr⟩ := htot v hv
      obtain ⟨r1, s⟩ := p
      have hp := hrec _ _ _ (WF_set_cell hg _ _ _) hr
      rw [hr]
      cases r1 with
      | some x => exact ⟨_, rfl⟩
      | none =>
        simp only
        have hs : s = set_cell g row col v := hp.2.1 rfl
        rw [hs, set_cell_undo hg v hrow hcol h0]
        exact ih hrest
    · simp only [hvalid]
      exact ih hrest

/-- With more fuel than blank cells, `solve_sudoku` returns. -/
theorem solve_sudoku_returns {N : Nat} :
    ∀ (fuel : Nat) (g : board), WF N g → count_blank g < fuel →
      ∃ p, solve_sudoku N fuel g = some p := by
  intro fuel
  induction fuel with
  | zero => intro g _ h; omega
  | succ fuel ih =>
    intro g hg hlt
    simp only [solve_sudoku]
    cases hf : find_blank N g with
    | none => exact ⟨_, rfl⟩
    | some p =>
      obtain ⟨row, col⟩ := p
      simp only
      obtain ⟨hrow, hcol, h0⟩ := find_blank_eq_some hf
      apply try_values_returns (solve_sudoku N fuel)
        (fun g res fin hg hs => solve_sudoku_post fuel g res fin hg hs) hrow hcol hg h0
      · intro v hv
        apply ih _ (WF_set_cell hg _ _ _)
        have := count_blank_set_cell hg hrow hcol h0 hv
        omega
      · intro v hv; rw [List.mem_range'_1] at hv; omega

/-- A grid returned by `get_solved` is well formed and is a board the search can end in. -/
theorem get_solved_some {N : Nat} {g out : board} (hg : WF N g)
    (h : get_solved N g = some out) : WF N out ∧ search_completion N g out := by
  unfold get_solved at h
  cases hs : solve_sudoku N (count_blank g + 1) g with
  | none => rw [hs] at h; cases h
  | some p =>
    obtain ⟨res, fin⟩ := p
    rw [hs] at h
    simp only at h
    subst h
    have hp := solve_sudoku_post _ _ _ _ hg hs
    obtain ⟨he, hsc⟩ := hp.2.2 out rfl
    subst he
    exact ⟨hp.1, hsc⟩

/-- The unsolvable result of `get_solved` means that the search can end in no board. -/
theorem get_solved_none {N : Nat} {g : board} (hg : WF N g)
    (h : get_solved N g = none) : ∀ out, ¬ search_completion N g out := by
  unfold get_solved at h
  obtain ⟨p, hs⟩ := solve_sudoku_returns (count_blank g + 1) g hg (Nat.lt_succ_self _)
  obtain ⟨res, fin⟩ := p
  rw [hs] at h
  simp only at h
  subst h
  exact solve_sudoku_exhaustive _ _ _ hg hs

/-! ## From pairwise distinctness to exactly-once -/

/-- Pigeonhole: an injective map of `S` indices into the values `1..S` reaches every value. -/
theorem pigeonhole_onto (S : Nat) (f : Nat → Nat) (hf : ∀ i < S, 1 ≤ f i ∧ f i ≤ S)
    (hinj : ∀ i < S, ∀ j < S, i ≠ j → f i ≠ f j) :
    ∀ v, 1 ≤ v → v ≤ S → ∃ i < S, f i = v := by
  intro v hv1 hv2
  have hsub : Finset.image f (Finset.range S) ⊆ Finset.Icc 1 S := by
    intro x hx
    obtain ⟨i, hi, rfl⟩ := Finset.mem_image.mp hx
    have := hf i (Finset.mem_range.mp hi)
    exact Finset.mem_Icc.mpr this
  have hcard : (Finset.image f (Finset.range S)).card = S := by
    rw [Finset.card_image_of_injOn, Finset.card_range]
    intro i hi j hj hij
    by_contra hne
    exact hinj i (Finset.mem_range.mp hi) j (Finset.mem_range.mp hj) hne hij
  have heq : Finset.image f (Finset.range S) = Finset.Icc 1 S := by
    apply Finset.eq_of_subset_of_card_le hsub
    rw [hcard, Nat.card_Icc]
    omega
  have hm : v ∈ Finset.image f (Finset.range S) := by
    rw [heq]; exact Finset.mem_Icc.mpr ⟨hv1, hv2⟩
  obtain ⟨i, hi, he⟩ := Finset.mem_image.mp hm
  exact ⟨i, Finset.mem_range.mp hi, he⟩

/-- A fully filled board without equal values in a shared row, column or box has every
value exactly once in every row, column and box. -/
theorem valid_complete_of_consistent {N : Nat} {b : board} (hfill : filled N b)
    (hcons : consistent N b) : valid_complete N b := by
  have hnz : ∀ r < N * N, ∀ c < N * N, cell b r c ≠ 0 := by
    intro r hr c hc
    have := (hfill r hr c hc).1
    omega
  refine ⟨?_, ?_, ?_⟩
  · intro r hr v hv1 hv2
    obtain ⟨c, hc, he⟩ := pigeonhole_onto (N * N) (fun c => cell b r c)
      (fun i hi => hfill r hr i hi)
      (fun i hi j hj hij => hcons r hr i hi r hr j hj (Or.inr hij) (Or.inl rfl) (hnz r hr i hi))
      v hv1 hv2
    refine ⟨c, ⟨hc, he⟩, ?_⟩
    rintro c' ⟨hc', he'⟩
    by_contra hne
    exact hcons r hr c' hc' r hr c hc (Or.inr hne) (Or.inl rfl) (hnz r hr c' hc')
      (by rw [he', ← he])
  · intro c hc v hv1 hv2
    obtain ⟨r, hr, he⟩ := pigeonhole_onto (N * N) (fun r => cell b r c)
      (fun i hi => hfill i hi c hc)
      (fun i hi j hj hij =>
        hcons i hi c hc j hj c hc (Or.inl hij) (Or.inr (Or.inl rfl)) (hnz i hi c hc))
      v hv1 hv2
    refine ⟨r, ⟨hr, he⟩, ?_⟩
    rintro r' ⟨hr', he'⟩
    by_contra hne
    exact hcons r' hr' c hc r hr c hc (Or.inl hne) (Or.inr (Or.inl rfl)) (hnz r' hr' c hc)
      (by rw [he', ← he])
  · intro br hbr bc hbc v hv1 hv2
    have hN : 0 < N := by omega
    have hin : ∀ i < N * N, N * br + i / N < N * N ∧ N * bc + i % N < N * N := fun i hi =>
      ⟨box_row_lt hbr (div_lt_of_lt_sq hi), box_row_lt hbc (Nat.mod_lt _ hN)⟩
    obtain ⟨i, hi, he⟩ := pigeonhole_onto (N * N)
      (fun i => cell b (N * br + i / N) (N * bc + i % N))
      (fun i hi => hfill _ (hin i hi).1 _ (hin i hi).2)
      (by
        intro i hi j hj hij
        apply hcons _ (hin i hi).1 _ (hin i hi).2 _ (hin j hj).1 _ (hin j hj).2
        · by_contra hcon
          have hcon2 := not_or.mp hcon
          have e1 : N * br + i / N = N * br + j / N := not_not.mp hcon2.1
          have e2 : N * bc + i % N = N * bc + j % N := not_not.mp hcon2.2
          have e3 : i / N = j / N := by omega
          have e4 : i % N = j % N := by omega
          apply hij
          rw [← Nat.div_add_mod i N, ← Nat.div_add_mod j N, e3, e4]
        · refine Or.inr (Or.inr ⟨?_, ?_⟩)
          · rw [box_row_div (div_lt_of_lt_sq hi), box_row_div (div_lt_of_lt_sq hj)]
          · rw [box_row_div (Nat.mod_lt _ hN), box_row_div (Nat.mod_lt _ hN)]
        · exact hnz _ (hin i hi).1 _ (hin i hi).2)
      v hv1 hv2
    refine ⟨(N * br + i / N, N * bc + i % N),
      ⟨box_row_div (div_lt_of_lt_sq hi), box_row_div (Nat.mod_lt _ hN), he⟩, ?_⟩
    rintro ⟨r', c'⟩ ⟨h1, h2, he'⟩
    simp only at h1 h2 he'
    by_contra hne
    have hr' : r' < N * N := (Nat.div_lt_iff_lt_mul hN).mp (by rw [h1]; exact hbr)
    have hc' : c' < N * N := (Nat.div_lt_iff_lt_mul hN).mp (by rw [h2]; exact hbc)
    apply hcons r' hr' c' hc' _ (hin i hi).1 _ (hin i hi).2
    · by_contra hcon
      have hcon2 := not_or.mp hcon
      have e1 : r' = N * br + i / N := not_not.mp hcon2.1
      have e2 : c' = N * bc + i % N := not_not.mp hcon2.2
      apply hne
      rw [e1, e2]
    · refine Or.inr (Or.inr ⟨?_, ?_⟩)
      · rw [h1, box_row_div (div_lt_of_lt_sq hi)]
      · rw [h2, box_row_div (Nat.mod_lt _ hN)]
    · exact hnz r' hr' c' hc'
    · rw [he']; exact he.symm

/-- In a fully filled board with every value exactly once per row, column and box, two
distinct cells of one row, column or box differ. -/
theorem distinct_of_valid_complete {N : Nat} {h : board} (hfill : filled N h)
    (hv : valid_complete N h) {r c r' c' : Nat} (hr : r < N * N) (hc : c < N * N)
    (hr' : r' < N * N) (hc' : c' < N * N) (hd : r ≠ r' ∨ c ≠ c')
    (hu : same_unit N r c r' c') : cell h r c ≠ cell h r' c' := by
  intro he
  obtain ⟨h1, h2⟩ := hfill r hr c hc
  rcases hu with hu | hu | ⟨hu1, hu2⟩
  · subst hu
    have hne : c ≠ c' := by
      rcases hd with h | h
      · exact absurd rfl h
      · exact h
    obtain ⟨x, _, hx⟩ := hv.1 r hr (cell h r c) h1 h2
    have e1 := hx c ⟨hc, rfl⟩
    have e2 := hx c' ⟨hc', he.symm⟩
    exact hne (e1.trans e2.symm)
  · subst hu
    have hne : r ≠ r' := by
      rcases hd with h | h
      · exact h
      · exact absurd rfl h
    obtain ⟨x, _, hx⟩ := hv.2.1 c hc (cell h r c) h1 h2
    have e1 := hx r ⟨hr, rfl⟩
    have e2 := hx r' ⟨hr', he.symm⟩
    exact hne (e1.trans e2.symm)
  · obtain ⟨x, _, hx⟩ := hv.2.2 (r / N) (div_lt_of_lt_sq hr) (c / N) (div_lt_of_lt_sq hc)
      (cell h r c) h1 h2
    have e1 := hx (r, c) ⟨rfl, rfl, rfl⟩
    have e2 := hx (r', c') ⟨hu1.symm, hu2.symm, he.symm⟩
    have e3 : (r, c) = (r', c') := e1.trans e2.symm
    simp only [Prod.mk.injEq] at e3
    rcases hd with h | h
    · exact h e3.1
    · exact h e3.2

/-- A valid completion of a grid is a board the search can end in. -/
theorem search_completion_of_valid {N : Nat} {g h : board} (hh : valid_completion N g h) :
    search_completion N g h := by
  obtain ⟨_, hfill, hag, hv⟩ := hh
  refine ⟨hag, ?_⟩
  intro r hr c hc _
  exact ⟨hfill r hr c hc, fun r' hr' c' hc' hd hu =>
    distinct_of_valid_complete hfill hv hr hc hr' hc' hd hu⟩

/-- A board the search can end in from a grid with cells in `[0, S]` is fully filled. -/
theorem filled_of_search_completion {N : Nat} {g out : board} (hin : in_range N g)
    (hs : search_completion N g out) : filled N out := by
  intro r hr c hc
  by_cases hz : cell g r c = 0
  · exact (hs.2 r hr c hc hz).1
  · rw [hs.1 r hr c hc hz]
    have := hin r hr c hc
    omega

/-- A board the search can end in has no blank cell. -/
theorem no_blank_of_search_completion {N : Nat} {g out : board}
    (hs : search_completion N g out) : no_blank N out := by
  intro r hr c hc
  by_cases hz : cell g r c = 0
  · have := (hs.2 r hr c hc hz).1.1
    omega
  · rw [hs.1 r hr c hc hz]; exact hz

/-- A board the search can end in from a consistent grid is consistent. -/
theorem consistent_of_search_completion {N : Nat} {g out : board} (hcons : consistent N g)
    (hs : search_completion N g out) : consistent N out := by
  intro r hr c hc r' hr' c' hc' hd hu _
  by_cases hz : cell g r c = 0
  · exact (hs.2 r hr c hc hz).2 r' hr' c' hc' hd hu
  · by_cases hz' : cell g r' c' = 0
    · have hd2 : r' ≠ r ∨ c' ≠ c := by
        rcases hd with h | h
        · exact Or.inl (Ne.symm h)
        · exact Or.inr (Ne.symm h)
      exact Ne.symm ((hs.2 r' hr' c' hc' hz').2 r hr c hc hd2 (same_unit_symm hu))
    · rw [hs.1 r hr c hc hz, hs.1 r' hr' c' hc' hz']
      exact hcons r hr c hc r' hr' c' hc' hd hu hz

/-- A board the search can end in from a consistent grid with cells in `[0, S]` is a valid
completion of that grid. -/
theorem valid_of_search_completion {N : Nat} {g out : board} (hin : in_range N g)
    (hcons : consistent N g) (hw : WF N out) (hs : search_completion N g out) :
    valid_completion N g out :=
  ⟨hw, filled_of_search_completion hin hs, hs.1,
    valid_complete_of_consistent (filled_of_search_completion hin hs)
      (consistent_of_search_completion hcons hs)⟩

/-! ## The exhaustive enumeration -/

theorem completions_sound {N : Nat} :
    ∀ (fuel : Nat) (g h : board), WF N g → h ∈ completions N fuel g →
      WF N h ∧ search_completion N g h := by
  intro fuel
  induction fuel with
  | zero => intro g h _ hm; simp [completions] at hm
  | succ fuel ih =>
    intro g h hg hm
    simp only [completions] at hm
    cases hf : find_blank N g with
    | none =>
      rw [hf] at hm
      simp only [List.mem_singleton] at hm
      subst hm
      have hnb := find_blank_eq_none.mp hf
      exact ⟨hg, fun r hr c hc _ => rfl, fun r hr c hc hz => absurd hz (hnb r hr c hc)⟩
    | some p =>
      obtain ⟨row, col⟩ := p
      rw [hf] at hm
      simp only [List.mem_flatMap] at hm
      obtain ⟨v, hv, hin⟩ := hm
      obtain ⟨hrow, hcol, h0⟩ := find_blank_eq_some hf
      rw [List.mem_range'_1] at hv
      by_cases hvalid : is_valid_placement N g row col v = true
      · simp only [hvalid, if_true] at hin
        obtain ⟨hw, hs⟩ := ih _ h (WF_set_cell hg _ _ _) hin
        exact ⟨hw, search_completion_of_set hg hrow hcol h0 hv.1 (by omega) hvalid hs⟩
      · simp [hvalid] at hin

theorem completions_complete {N : Nat} :
    ∀ (fuel : Nat) (g h : board), WF N g → count_blank g < fuel → WF N h →
      search_completion N g h → h ∈ completions N fuel g := by
  intro fuel
  induction fuel with
  | zero => intro g h _ hlt; omega
  | succ fuel ih =>
    intro g h hg hlt hw hs
    simp only [completions]
    cases hf : find_blank N g with
    | none =>
      simp only [List.mem_singleton]
      have hnb := find_blank_eq_none.mp hf
      exact board_ext hw hg (fun r hr c hc => hs.1 r hr c hc (hnb r hr c hc))
    | some p =>
      obtain ⟨row, col⟩ := p
      simp only [List.mem_flatMap]
      obtain ⟨hrow, hcol, h0⟩ := find_blank_eq_some hf
      have hv := (hs.2 row hrow col hcol h0).1
      have hvne : cell h row col ≠ 0 := by omega
      refine ⟨cell h row col, by rw [List.mem_range'_1]; omega, ?_⟩
      have hvalid : is_valid_placement N g row col (cell h row col) = true := by
        by_contra hne
        have hf2 : is_valid_placement N g row col (cell h row col) = false := by
          simpa using hne
        exact rejected_value_excluded hrow hcol h0 hvne hs hf2 rfl
      simp only [hvalid, if_true]
      apply ih _ h (WF_set_cell hg _ _ _) _ hw (search_completion_set hg hrow hcol hs)
      have := count_blank_set_cell hg hrow hcol h0 hvne
      omega

theorem completions_along_sound {N : Nat} :
    ∀ (order : List (Nat × Nat)) (g h : board), WF N g → h ∈ completions_along N order g →
      WF N h ∧ search_completion N g h := by
  intro order
  induction order with
  | nil =>
    intro g h hg hm
    exact completions_sound _ g h hg hm
  | cons p rest ih =>
    obtain ⟨row, col⟩ := p
    intro g h hg hm
    simp only [completions_along] at hm
    by_cases hc : row < N * N ∧ col < N * N ∧ cell g row col = 0
    · obtain ⟨hrow, hcol, h0⟩ := hc
      simp only [hrow, hcol, h0, and_self, if_true, List.mem_flatMap] at hm
      obtain ⟨v, hv, hin⟩ := hm
      rw [List.mem_range'_1] at hv
      by_cases hvalid : is_valid_placement N g row col v = true
      · simp only [hvalid, if_true] at hin
        obtain ⟨hw, hs⟩ := ih _ h (WF_set_cell hg _ _ _) hin
        exact ⟨hw, search_completion_of_set hg hrow hcol h0 hv.1 (by omega) hvalid hs⟩
      · simp [hvalid] at hin
    · rw [if_neg hc] at hm
      exact ih g h hg hm

theorem completions_along_complete {N : Nat} :
    ∀ (order : List (Nat × Nat)) (g h : board), WF N g → WF N h →
      search_completion N g h → h ∈ completions_along N order g := by
  intro order
  induction order with
  | nil =>
    intro g h hg hw hs
    exact completions_complete _ g h hg (Nat.lt_succ_self _) hw hs
  | cons p rest ih =>
    obtain ⟨row, col⟩ := p
    intro g h hg hw hs
    simp only [completions_along]
    by_cases hc : row < N * N ∧ col < N * N ∧ cell g row col = 0
    · obtain ⟨hrow, hcol, h0⟩ := hc
      simp only [hrow, hcol, h0, and_self, if_true, List.mem_flatMap]
      have hv := (hs.2 row hrow col hcol h0).1
      have hvne : cell h row col ≠ 0 := by omega
      refine ⟨cell h row col, by rw [List.mem_range'_1]; omega, ?_⟩
      have hvalid : is_valid_placement N g row col (cell h row col) = true := by
        by_contra hne
        have hf2 : is_valid_placement N g row col (cell h row col) = false := by
          simpa using hne
        exact rejected_value_excluded hrow hcol h0 hvne hs hf2 rfl
      simp only [hvalid, if_true]
      exact ih _ h (WF_set_cell hg _ _ _) hw (search_completion_set hg hrow hcol hs)
    · rw [if_neg hc]
      exact ih g h hg hw hs

/-- For a well-formed grid, the unsolvable result of `get_solved` is a search that came back
with `nullopt`, never an exhausted recursion bound. -/
theorem get_solved_none_iff {N : Nat} {g : board} (hg : WF N g) :
    get_solved N g = none ↔ solve_sudoku N (count_blank g + 1) g = some (none, g) := by
  unfold get_solved
  obtain ⟨p, hs⟩ := solve_sudoku_returns (count_blank g + 1) g hg (Nat.lt_succ_self _)
  obtain ⟨res, fin⟩ := p
  have hp := solve_sudoku_post _ _ _ _ hg hs
  rw [hs]
  constructor
  · intro h
    simp only at h
    subst h
    rw [hp.2.1 rfl]
  · intro h
    simp only [Option.some.injEq, Prod.mk.injEq] at h
    simp only [h.1]

/-- A grid without blank cell is returned as it is. -/
theorem get_solved_of_no_blank {N : Nat} {g : board} (h : no_blank N g) :
    get_solved N g = some g := by
  unfold get_solved
  simp only [solve_sudoku, find_blank_eq_none.mpr h]

/-! ## Evaluations on the scenario data -/

set_option maxRecDepth 1000000 in
theorem demo_get_solved : get_solved 3 demo_puzzle = some demo_solution := by decide!

set_option maxRecDepth 1000000 in
theorem demo_completions_eq :
    completions_along 3 demo_order demo_puzzle = demo_completions := by decide!

set_option maxRecDepth 1000000 in
theorem demo_consistent : consistent 3 demo_puzzle := by decide!

set_option maxRecDepth 1000000 in
theorem duplicate_row_search :
    solve_sudoku 2 (count_blank duplicate_row_grid + 1) duplicate_row_grid =
      some (none, duplicate_row_grid) := by decide!

theorem demo_WF : WF 3 demo_puzzle := by decide

theorem demo_in_range : in_range 3 demo_puzzle := by decide

/-- The valid completions of the demonstration puzzle are the boards of `demo_completions`. -/
theorem demo_valid_completion_iff (h : board) :
    valid_completion 3 demo_puzzle h ↔ h ∈ demo_completions := by
  rw [← demo_completions_eq]
  constructor
  · intro hv
    exact completions_along_complete demo_order demo_puzzle h demo_WF hv.1
      (search_completion_of_valid hv)
  · intro hm
    obtain ⟨hw, hs⟩ := completions_along_sound demo_order demo_puzzle h demo_WF hm
    exact valid_of_search_completion demo_in_range demo_consistent hw hs

/-! ## The contract of `get_solved` -/

/-- C1, soundness of `get_solved`: for a box size `N ≥ 1` and an `S × S` input grid whose
cells lie in `[0, S]` and in which no two distinct non-blank cells of one row, column or
box hold the same value, every grid that `get_solved` returns has every value `1..S` exactly
once in every row, in every column and in every box. -/
theorem C1_get_solved_sound (N : Nat) (_hN : 1 ≤ N) (g out : board) (hg : WF N g)
    (hin : in_range N g) (hcons : consistent N g) (h : get_solved N g = some out) :
    valid_complete N out := by
  obtain ⟨hw, hs⟩ := get_solved_some hg h
  exact (valid_of_search_completion hin hcons hw hs).2.2.2

theorem C1_get_solved_sound_witness :
    (WF 2 small_puzzle ∧ in_range 2 small_puzzle ∧ consistent 2 small_puzzle ∧
      get_solved 2 small_puzzle = some small_solution) ∧ valid_complete 2 small_solution :=
  ⟨⟨by decide, by decide, by decide, by decide⟩,
    C1_get_solved_sound 2 (by decide) small_puzzle small_solution (by decide) (by decide)
      (by decide) (by decide)⟩

/-- C2, completeness of `get_solved`: for a box size `N ≥ 1` and an `S × S` input grid, if
some fully filled grid agrees with the input on every non-blank cell and has every value
`1..S` exactly once in every row, column and box, then `get_solved` returns a grid; the
unsolvable result is returned only when the input has no valid completion. -/
theorem C2_get_solved_complete (N : Nat) (_hN : 1 ≤ N) (g : board) (hg : WF N g)
    (hex : ∃ h, valid_completion N g h) :
    (∃ out, get_solved N g = some out) ∧ get_solved N g ≠ none := by
  obtain ⟨h, hh⟩ := hex
  have hne : get_solved N g ≠ none := fun hn =>
    get_solved_none hg hn h (search_completion_of_valid hh)
  refine ⟨?_, hne⟩
  cases hr : get_solved N g with
  | none => exact absurd hr hne
  | some out => exact ⟨out, rfl⟩

theorem C2_get_solved_complete_witness :
    (WF 2 small_puzzle ∧ valid_completion 2 small_puzzle small_solution) ∧
      ((∃ out, get_solved 2 small_puzzle = some out) ∧ get_solved 2 small_puzzle ≠ none) :=
  ⟨⟨by decide, by decide, by decide, by decide,
      valid_complete_of_consistent (by decide) (by decide)⟩,
    C2_get_solved_complete 2 (by decide) small_puzzle (by decide)
      ⟨small_solution, by decide, by decide, by decide,
        valid_complete_of_consistent (by decide) (by decide)⟩⟩

/-- C3, consistency with the input: for a box size `N ≥ 1` and any `S × S` input grid,
consistent or not, every cell that is non-blank in the input holds the same value in the
grid that `get_solved` returns; a cell that differs was `0` in the input. -/
theorem C3_get_solved_keeps_givens (N : Nat) (_hN : 1 ≤ N) (g out : board) (hg : WF N g)
    (h : get_solved N g = some out) :
    (∀ r < N * N, ∀ c < N * N, cell g r c ≠ 0 → cell out r c = cell g r c) ∧
    (∀ r < N * N, ∀ c < N * N, cell out r c ≠ cell g r c → cell g r c = 0) := by
  have hag := (get_solved_some hg h).2.1
  refine ⟨hag, ?_⟩
  intro r hr c hc hne
  by_contra hz
  exact hne (hag r hr c hc hz)

theorem C3_get_solved_keeps_givens_witness :
    (WF 2 duplicate_one_blank ∧ get_solved 2 duplicate_one_blank = some duplicate_filled) ∧
      ((∀ r < 2 * 2, ∀ c < 2 * 2, cell duplicate_one_blank r c ≠ 0 →
          cell duplicate_filled r c = cell duplicate_one_blank r c) ∧
       (∀ r < 2 * 2, ∀ c < 2 * 2, cell duplicate_filled r c ≠ cell duplicate_one_blank r c →
          cell duplicate_one_blank r c = 0)) :=
  ⟨⟨by decide, by decide⟩,
    C3_get_solved_keeps_givens 2 (by decide) duplicate_one_blank duplicate_filled (by decide)
      (by decide)⟩

/-- C4 as stated fails: the 4 × 4 grid `duplicate_one_blank` has cells in `[0, 4]` and holds
`2` twice in row 0, yet `get_solved` returns a grid for it, the input with its single blank
cell filled by `1`. -/
theorem C4_duplicate_input_counterexample :
    WF 2 duplicate_one_blank ∧ in_range 2 duplicate_one_blank ∧
      cell duplicate_one_blank 0 0 = 2 ∧ cell duplicate_one_blank 0 1 = 2 ∧
      has_duplicate 2 duplicate_one_blank ∧
      get_solved 2 duplicate_one_blank = some duplicate_filled ∧
      get_solved 2 duplicate_one_blank ≠ none := by
  refine ⟨by decide, by decide, by decide, by decide, by decide, by decide, by decide⟩

/-- C4, amended: for a box size `N ≥ 1` and an `S × S` input grid with cells in `[0, S]` that
holds two identical non-blank values in one row, column or box, `get_solved` never returns a
grid with every value exactly once per row, column and box: a grid it returns still holds
the duplicate of the input.  It returns the unsolvable result exactly when the blank cells
cannot be filled with values of `1..S` such that each filled-in cell differs from every
other cell of its row, column and box. -/
theorem C4_duplicate_input_amended (N : Nat) (_hN : 1 ≤ N) (g : board) (hg : WF N g)
    (hin : in_range N g) (hdup : has_duplicate N g) :
    (∀ out, get_solved N g = some out → has_duplicate N out ∧ ¬ valid_complete N out) ∧
    (get_solved N g = none ↔ ∀ h, WF N h → ¬ search_completion N g h) := by
  constructor
  · intro out h
    obtain ⟨_, hs⟩ := get_solved_some hg h
    obtain ⟨r, hr, c, hc, r', hr', c', hc', hd, hu, hne, he⟩ := hdup
    have e1 := hs.1 r hr c hc hne
    have e2 := hs.1 r' hr' c' hc' (by rw [← he]; exact hne)
    have hout : cell out r c = cell out r' c' := by rw [e1, e2, he]
    refine ⟨⟨r, hr, c, hc, r', hr', c', hc', hd, hu, by rw [e1]; exact hne, hout⟩, ?_⟩
    intro hv
    exact distinct_of_valid_complete (filled_of_search_completion hin hs) hv hr hc hr' hc'
      hd hu hout
  · constructor
    · intro h out _
      exact get_solved_none hg h out
    · intro h
      cases hr : get_solved N g with
      | none => rfl
      | some out =>
        obtain ⟨hw, hs⟩ := get_solved_some hg hr
        exact absurd hs (h out hw)

theorem C4_duplicate_input_amended_witness :
    (WF 2 duplicate_one_blank ∧ in_range 2 duplicate_one_blank ∧
      has_duplicate 2 duplicate_one_blank) ∧
    ((∀ out, get_solved 2 duplicate_one_blank = some out →
        has_duplicate 2 out ∧ ¬ valid_complete 2 out) ∧
     (get_solved 2 duplicate_one_blank = none ↔
        ∀ h, WF 2 h → ¬ search_completion 2 duplicate_one_blank h)) :=
  ⟨⟨by decide, by decide, by decide⟩,
    C4_duplicate_input_amended 2 (by decide) duplicate_one_blank (by decide) (by decide)
      (by decide)⟩

/-- C5, characterisation of `is_valid_placement`: for a box size `N ≥ 1`, an `S × S` grid,
`row < S`, `col < S` and any value, the check returns false if and only if the value occurs
in some cell of row `row`, or of column `col`, or in some cell `(r, c)` of the box of
`(row, col)`, that is with `r / N = row / N` and `c / N = col / N`; it returns true
otherwise.  The box is the `N × N` block whose top-left corner is
`(N * (row / N), N * (col / N))`. -/
theorem C5_is_valid_placement_characterisation (N : Nat) (hN : 1 ≤ N) (b : board)
    (_hb : WF N b) (row col : Nat) (_hrow : row < N * N) (_hcol : col < N * N) (value : Nat) :
    (is_valid_placement N b row col value = false ↔
      (∃ c < N * N, cell b row c = value) ∨ (∃ r < N * N, cell b r col = value) ∨
      (∃ r c, r / N = row / N ∧ c / N = col / N ∧ cell b r c = value)) ∧
    (is_valid_placement N b row col value = true ↔
      ¬ ((∃ c < N * N, cell b row c = value) ∨ (∃ r < N * N, cell b r col = value) ∨
        (∃ r c, r / N = row / N ∧ c / N = col / N ∧ cell b r c = value))) ∧
    (∀ r c, (r / N = row / N ∧ c / N = col / N) ↔
      (N * (row / N) ≤ r ∧ r < N * (row / N) + N) ∧
      (N * (col / N) ≤ c ∧ c < N * (col / N) + N)) := by
  have hf := placement_false_iff hN b row col value
  refine ⟨hf, ?_, ?_⟩
  · rw [← hf]
    cases is_valid_placement N b row col value <;> simp
  · intro r c
    have key : ∀ x q : Nat, x / N = q ↔ (N * q ≤ x ∧ x < N * q + N) := by
      intro x q
      constructor
      · intro hq
        subst hq
        have h1 := Nat.div_add_mod x N
        have h2 := Nat.mod_lt x hN
        omega
      · rintro ⟨h1, h2⟩
        have hx : x = N * q + (x - N * q) := by omega
        rw [hx]
        exact box_row_div (by omega)
    rw [key r, key c]

theorem C5_is_valid_placement_characterisation_witness :
    (1 ≤ 2 ∧ WF 2 small_puzzle ∧ 0 < 2 * 2 ∧ 1 < 2 * 2) ∧
      is_valid_placement 2 small_puzzle 0 1 3 = false :=
  ⟨⟨by decide, by decide, by decide, by decide⟩,
    (C5_is_valid_placement_characterisation 2 (by decide) small_puzzle (by decide) 0 1
      (by decide) (by decide) 3).1.mpr (Or.inl ⟨2, by decide, by decide⟩)⟩

/-- C6, no partial result: for a box size `N ≥ 1` and an `S × S` input grid with cells in
`[0, S]`, consistent or not, every grid that `get_solved` returns has no blank cell and all
its cells in `[1, S]`. -/
theorem C6_no_partial_result (N : Nat) (_hN : 1 ≤ N) (g out : board) (hg : WF N g)
    (hin : in_range N g) (h : get_solved N g = some out) :
    (∀ r < N * N, ∀ c < N * N, cell out r c ≠ 0) ∧
    (∀ r < N * N, ∀ c < N * N, 1 ≤ cell out r c ∧ cell out r c ≤ N * N) := by
  obtain ⟨_, hs⟩ := get_solved_some hg h
  exact ⟨no_blank_of_search_completion hs, filled_of_search_completion hin hs⟩

theorem C6_no_partial_result_witness :
    (WF 2 duplicate_one_blank ∧ in_range 2 duplicate_one_blank ∧
      get_solved 2 duplicate_one_blank = some duplicate_filled) ∧
    ((∀ r < 2 * 2, ∀ c < 2 * 2, cell duplicate_filled r c ≠ 0) ∧
     (∀ r < 2 * 2, ∀ c < 2 * 2,
        1 ≤ cell duplicate_filled r c ∧ cell duplicate_filled r c ≤ 2 * 2)) :=
  ⟨⟨by decide, by decide, by decide⟩,
    C6_no_partial_result 2 (by decide) duplicate_one_blank duplicate_filled (by decide)
      (by decide) (by decide)⟩

/-- C7, idempotence on a complete grid: for a box size `N ≥ 1`, an `S × S` input grid that
has no blank cell and satisfies row, column and box uniqueness is returned by `get_solved`
exactly as it is; hence `get_solved` applied to a grid it has returned returns that grid
again. -/
theorem C7_complete_grid_unchanged (N : Nat) (_hN : 1 ≤ N) (g : board) (_hg : WF N g)
    (hnb : no_blank N g) (_hv : valid_complete N g) :
    get_solved N g = some g ∧
    ∀ g0 out, WF N g0 → get_solved N g0 = some out → get_solved N out = some out := by
  refine ⟨get_solved_of_no_blank hnb, ?_⟩
  intro g0 out hg0 h
  exact get_solved_of_no_blank (no_blank_of_search_completion (get_solved_some hg0 h).2)

theorem C7_complete_grid_unchanged_witness :
    (WF 2 small_solution ∧ no_blank 2 small_solution ∧ valid_complete 2 small_solution) ∧
    (get_solved 2 small_solution = some small_solution ∧
      ∀ g0 out, WF 2 g0 → get_solved 2 g0 = some out → get_solved 2 out = some out) :=
  ⟨⟨by decide, by decide, valid_complete_of_consistent (by decide) (by decide)⟩,
    C7_complete_grid_unchanged 2 (by decide) small_solution (by decide) (by decide)
      (valid_complete_of_consistent (by decide) (by decide))⟩

/-! ## The scenarios -/

/-- C8, the demonstration puzzle is solved: for `N = 3` and the 9 × 9 grid of
`solve_at_comptime`, `get_solved` returns a grid; that grid is fully filled with values
`1..9`, has each value exactly once in every row, column and 3 × 3 box, and agrees with the
puzzle on every given cell. -/
theorem C8_demo_puzzle_solved :
    ∃ out, get_solved 3 demo_puzzle = some out ∧ WF 3 out ∧ filled 3 out ∧
      valid_complete 3 out ∧ agrees 3 demo_puzzle out := by
  obtain ⟨hw, hs⟩ := get_solved_some demo_WF demo_get_solved
  obtain ⟨h1, h2, h3, h4⟩ := valid_of_search_completion demo_in_range demo_consistent hw hs
  exact ⟨demo_solution, demo_get_solved, h1, h2, h4, h3⟩

/-- C9 as stated fails: the grid `demo_alternative` is fully filled, agrees with the
demonstration puzzle on every given cell and satisfies row, column and box uniqueness, and
it is not the grid that `get_solved` returns. -/
theorem C9_demo_solution_not_unique :
    get_solved 3 demo_puzzle = some demo_solution ∧
      valid_completion 3 demo_puzzle demo_alternative ∧
      demo_alternative ≠ demo_solution :=
  ⟨demo_get_solved, (demo_valid_completion_iff demo_alternative).mpr (by decide), by decide⟩

/-- C9, amended: the grid returned by `get_solved` for the demonstration puzzle is a fully
filled grid that agrees with the given cells and satisfies row, column and box uniqueness,
but it is not the only one: the puzzle has exactly sixteen valid completions, the boards of
`demo_completions`, and the returned grid is one of them. -/
theorem C9_demo_sixteen_completions :
    get_solved 3 demo_puzzle = some demo_solution ∧
      valid_completion 3 demo_puzzle demo_solution ∧
      (∀ h, valid_completion 3 demo_puzzle h ↔ h ∈ demo_completions) ∧
      demo_completions.length = 16 ∧ demo_completions.Nodup :=
  ⟨demo_get_solved, (demo_valid_completion_iff demo_solution).mpr (by decide),
    demo_valid_completion_iff, by decide, by decide⟩

/-- C10, the unsolvable scenario: for `N = 2` and the 4 × 4 grid whose row 0 is `1 1 0 0` and
whose other rows are blank, `get_solved` returns the unsolvable result: the search comes
back with `nullopt`, the working grid restored. -/
theorem C10_duplicate_row_unsolvable :
    get_solved 2 duplicate_row_grid = none ∧
      solve_sudoku 2 (count_blank duplicate_row_grid + 1) duplicate_row_grid =
        some (none, duplicate_row_grid) :=
  ⟨(get_solved_none_iff (by decide)).mpr duplicate_row_search, duplicate_row_search⟩

/-! ## The minimal size -/

/-- C11, the minimal size: for `N = 1` (`S = 1`), `get_solved` on the 1 × 1 grid whose
single cell is blank returns the 1 × 1 grid whose cell holds `1`. -/
theorem C11_minimal_size_solved : get_solved 1 single_blank = some [[1]] := by decide

/-! ## Construction from a vector -/

theorem sudoku_solver_of_vector_spec {N : Nat} {v : List (List Nat)}
    (hv : ∀ i < N * N, ∀ j < N * N, i < v.length ∧ j < (v.getD i []).length) :
    ∃ b, sudoku_solver_of_vector N v = some b ∧ WF N b ∧
      ∀ i < N * N, ∀ j < N * N, cell b i j = cell v i j := by
  refine ⟨_, by unfold sudoku_solver_of_vector; rw [if_pos hv], ?_, ?_⟩
  · refine ⟨by simp, ?_⟩
    intro r hr
    obtain ⟨i, _, rfl⟩ := List.mem_map.mp hr
    simp
  · intro i hi j hj
    unfold cell
    simp [List.getD_eq_getElem?_getD, List.getElem?_map, List.getElem?_range, hi, hj]

theorem reads_in_range_of_WF {N : Nat} {v : List (List Nat)} (hv : WF N v) :
    ∀ i < N * N, ∀ j < N * N, i < v.length ∧ j < (v.getD i []).length := by
  intro i hi j hj
  rw [WF_row_length hv hi, hv.1]
  exact ⟨hi, hj⟩

/-- C12 as stated fails: neither `oversized_vector` nor `vector_with_short_row` consists of
exactly one row of one value, yet for side 1 the constructor builds a solver from each, with
the board `[[7]]`; no error is raised. -/
theorem C12_no_dimension_check_counterexample :
    ¬ WF 1 oversized_vector ∧ sudoku_solver_of_vector 1 oversized_vector = some [[7]] ∧
    ¬ WF 1 vector_with_short_row ∧
    sudoku_solver_of_vector 1 vector_with_short_row = some [[7]] := by
  refine ⟨by decide, by decide, by decide, by decide⟩

/-- C12, amended: the constructor checks no dimension and raises no error.  From exactly `S`
rows of `S` values it succeeds and stores `cell (i, j) = v[i][j]` for all `i, j < S`; it
succeeds in the same way from every nested collection in which the reads `v[i][j]` for
`i, j < S` are inside the collection, whatever further rows and values it holds. -/
theorem C12_construction_amended (N : Nat) (_hN : 1 ≤ N) (v : List (List Nat)) :
    (WF N v → sudoku_solver_of_vector N v = some v) ∧
    ((∀ i < N * N, ∀ j < N * N, i < v.length ∧ j < (v.getD i []).length) →
      ∃ b, sudoku_solver_of_vector N v = some b ∧ WF N b ∧
        ∀ i < N * N, ∀ j < N * N, cell b i j = cell v i j) := by
  refine ⟨?_, sudoku_solver_of_vector_spec⟩
  intro hv
  obtain ⟨b, hb, hw, hc⟩ := sudoku_solver_of_vector_spec (reads_in_range_of_WF hv)
  rw [hb, board_ext hw hv hc]

theorem C12_construction_amended_witness :
    (1 ≤ 1 ∧ ∀ i < 1 * 1, ∀ j < 1 * 1,
      i < oversized_vector.length ∧ j < (oversized_vector.getD i []).length) ∧
    ∃ b, sudoku_solver_of_vector 1 oversized_vector = some b ∧ WF 1 b ∧
      ∀ i < 1 * 1, ∀ j < 1 * 1, cell b i j = cell oversized_vector i j :=
  ⟨⟨by decide, by decide⟩,
    (C12_construction_amended 1 (by decide) oversized_vector).2 (by decide)⟩

/-! ## Termination and backtracking -/

theorem try_values_congr {N : Nat} (recurse recurse2 : board → Option (Option board × board))
    (hrec : ∀ g res fin, WF N g → recurse g = some (res, fin) → search_post N g res fin)
    {row col : Nat} (hrow : row < N * N) (hcol : col < N * N) {g : board} (hg : WF N g)
    (h0 : cell g row col = 0) :
    ∀ (vs : List Nat),
      (∀ v ∈ vs, recurse (set_cell g row col v) = recurse2 (set_cell g row col v)) →
      try_values N recurse row col vs g = try_values N recurse2 row col vs g := by
  intro vs
  induction vs with
  | nil => intro _; rfl
  | cons v rest ih =>
    intro hvs
    have hrest : ∀ w ∈ rest,
        recurse (set_cell g row col w) = recurse2 (set_cell g row col w) :=
      fun w hw => hvs w (List.mem_cons_of_mem _ hw)
    have hv := hvs v (List.mem_cons_self _ _)
    simp only [try_values]
    by_cases hvalid : is_valid_placement N g row col v = true
    · simp only [hvalid, if_true]
      rw [← hv]
      cases hr : recurse (set_cell g row col v) with
      | none => rfl
      | some p =>
        obtain ⟨r1, s⟩ := p
        have hp := hrec _ _ _ (WF_set_cell hg _ _ _) hr
        cases r1 with
        | some x => rfl
        | none =>
          simp only
          have hs : s = set_cell g row col v := hp.2.1 rfl
          rw [hs, set_cell_undo hg v hrow hcol h0]
          exact ih hrest
    · simp only [hvalid]
      exact ih hrest

/-- Once the recursion bound exceeds the number of blank cells, a larger bound changes
nothing. -/
theorem solve_sudoku_fuel_succ {N : Nat} :
    ∀ (fuel : Nat) (g : board), WF N g → count_blank g < fuel →
      solve_sudoku N (fuel + 1) g = solve_sudoku N fuel g := by
  intro fuel
  induction fuel with
  | zero => intro g _ h; omega
  | succ fuel ih =>
    intro g hg hlt
    rw [solve_sudoku, solve_sudoku]
    cases hf : find_blank N g with
    | none => rfl
    | some p =>
      obtain ⟨row, col⟩ := p
      simp only
      obtain ⟨hrow, hcol, h0⟩ := find_blank_eq_some hf
      apply try_values_congr (solve_sudoku N (fuel + 1)) (solve_sudoku N fuel)
        (fun g res fin hg hs => solve_sudoku_post (fuel + 1) g res fin hg hs) hrow hcol hg h0
      intro v hv
      rw [List.mem_range'_1] at hv
      apply ih _ (WF_set_cell hg _ _ _)
      have := count_blank_set_cell hg hrow hcol h0 (v := v) (by omega)
      omega

theorem solve_sudoku_fuel_indep {N : Nat} {g : board} (hg : WF N g) :
    ∀ fuel, count_blank g < fuel →
      solve_sudoku N fuel g = solve_sudoku N (count_blank g + 1) g := by
  intro fuel hlt
  induction fuel with
  | zero => omega
  | succ fuel ih =>
    by_cases h : count_blank g < fuel
    · rw [solve_sudoku_fuel_succ fuel g hg h]; exact ih h
    · have : fuel = count_blank g := by omega
      rw [this]

/-- C13, termination: for a box size `N ≥ 1` and an `S × S` grid, `solve_sudoku` returns as
soon as the bound on its recursion depth exceeds the number of blank cells of the grid, with
the same result for every such bound; filling the first blank cell with a candidate leaves
strictly fewer blank cells; and a call depends on its recursive calls only at the grid with
the first blank cell filled by a candidate.  So the recursion is well founded on the number
of blank cells and its depth never exceeds the number of blank cells of the input. -/
theorem C13_solve_sudoku_terminates (N : Nat) (_hN : 1 ≤ N) (g : board) (hg : WF N g) :
    (∀ fuel, count_blank g < fuel →
      (∃ res fin, solve_sudoku N fuel g = some (res, fin)) ∧
      solve_sudoku N fuel g = solve_sudoku N (count_blank g + 1) g) ∧
    (∀ row col, find_blank N g = some (row, col) →
      ∀ value, 1 ≤ value → value ≤ N * N →
        count_blank (set_cell g row col value) < count_blank g) ∧
    (∀ row col, find_blank N g = some (row, col) →
      ∀ fuel (recurse : board → Option (Option board × board)),
        (∀ value, 1 ≤ value → value ≤ N * N →
          recurse (set_cell g row col value) =
            solve_sudoku N fuel (set_cell g row col value)) →
        solve_sudoku N (fuel + 1) g =
          try_values N recurse row col (List.range' 1 (N * N)) g) := by
  refine ⟨?_, ?_, ?_⟩
  · intro fuel hlt
    obtain ⟨p, hp⟩ := solve_sudoku_returns fuel g hg hlt
    exact ⟨⟨p.1, p.2, hp⟩, solve_sudoku_fuel_indep hg fuel hlt⟩
  · intro row col hf value hv1 _
    obtain ⟨hrow, hcol, h0⟩ := find_blank_eq_some hf
    have := count_blank_set_cell hg hrow hcol h0 (v := value) (by omega)
    omega
  · intro row col hf fuel recurse hsame
    obtain ⟨hrow, hcol, h0⟩ := find_blank_eq_some hf
    rw [solve_sudoku, hf]
    simp only
    apply try_values_congr (solve_sudoku N fuel) recurse
      (fun g res fin hg hs => solve_sudoku_post fuel g res fin hg hs) hrow hcol hg h0
    intro v hv
    rw [List.mem_range'_1] at hv
    exact (hsame v hv.1 (by omega)).symm

theorem C13_solve_sudoku_terminates_witness :
    WF 2 small_puzzle ∧
    ((∀ fuel, count_blank small_puzzle < fuel →
      (∃ res fin, solve_sudoku 2 fuel small_puzzle = some (res, fin)) ∧
      solve_sudoku 2 fuel small_puzzle =
        solve_sudoku 2 (count_blank small_puzzle + 1) small_puzzle) ∧
    (∀ row col, find_blank 2 small_puzzle = some (row, col) →
      ∀ value, 1 ≤ value → value ≤ 2 * 2 →
        count_blank (set_cell small_puzzle row col value) < count_blank small_puzzle) ∧
    (∀ row col, find_blank 2 small_puzzle = some (row, col) →
      ∀ fuel (recurse : board → Option (Option board × board)),
        (∀ value, 1 ≤ value → value ≤ 2 * 2 →
          recurse (set_cell small_puzzle row col value) =
            solve_sudoku 2 fuel (set_cell small_puzzle row col value)) →
        solve_sudoku 2 (fuel + 1) small_puzzle =
          try_values 2 recurse row col (List.range' 1 (2 * 2)) small_puzzle)) :=
  ⟨by decide, C13_solve_sudoku_terminates 2 (by decide) small_puzzle (by decide)⟩

/-- C14, backtracking restores the working grid: for a box size `N ≥ 1` and an `S × S` grid,
a call of `solve_sudoku` that returns `nullopt` leaves the working grid identical to the
grid it was given; every cell that was blank at the start is blank again. -/
theorem C14_failed_call_restores_grid (N : Nat) (_hN : 1 ≤ N) (fuel : Nat) (g fin : board)
    (hg : WF N g) (h : solve_sudoku N fuel g = some (none, fin)) :
    fin = g ∧ ∀ r < N * N, ∀ c < N * N, cell g r c = 0 → cell fin r c = 0 := by
  have hfin : fin = g := (solve_sudoku_post fuel g none fin hg h).2.1 rfl
  subst hfin
  exact ⟨rfl, fun r _ c _ hz => hz⟩

theorem C14_failed_call_restores_grid_witness :
    (WF 2 dead_end_grid ∧ solve_sudoku 2 3 dead_end_grid = some (none, dead_end_grid)) ∧
    (dead_end_grid = dead_end_grid ∧
      ∀ r < 2 * 2, ∀ c < 2 * 2, cell dead_end_grid r c = 0 → cell dead_end_grid r c = 0) :=
  ⟨⟨by decide, by decide⟩,
    C14_failed_call_restores_grid 2 (by decide) 3 dead_end_grid dead_end_grid (by decide)
      (by decide)⟩

/-! ## The first solution found is the least -/

theorem findSome_range'_first {β : Type} (f : Nat → Option β) :
    ∀ (n s : Nat) (b : β), (List.range' s n).findSome? f = some b →
      ∃ a, s ≤ a ∧ a < s + n ∧ f a = some b ∧ ∀ x, s ≤ x → x < a → f x = none := by
  intro n
  induction n with
  | zero => intro s b h; simp at h
  | succ n ih =>
    intro s b h
    rw [List.range'_succ, List.findSome?_cons] at h
    cases hfs : f s with
    | some y =>
      rw [hfs] at h
      simp only [Option.some.injEq] at h
      subst h
      exact ⟨s, Nat.le_refl _, by omega, hfs, fun x h1 h2 => by omega⟩
    | none =>
      rw [hfs] at h
      simp only at h
      obtain ⟨a, h1, h2, h3, h4⟩ := ih (s + 1) b h
      refine ⟨a, by omega, by omega, h3, ?_⟩
      intro x hx1 hx2
      by_cases hxs : x = s
      · rw [hxs]; exact hfs
      · exact h4 x (by omega) hx2

/-- The scan stops at the first blank cell in row-major order. -/
theorem find_blank_first {N : Nat} {b : board} {r c : Nat}
    (h : find_blank N b = some (r, c)) :
    ∀ r' < N * N, ∀ c' < N * N, before r' c' r c → cell b r' c' ≠ 0 := by
  unfold find_blank at h
  rw [List.range_eq_range'] at h
  obtain ⟨row, _, hrow, hin, hrows⟩ := findSome_range'_first _ _ _ _ h
  obtain ⟨col, _, hcol, hif, hcols⟩ := findSome_range'_first _ _ _ _ hin
  have hz : cell b row col = 0 := by
    by_contra hne
    simp [hne] at hif
  simp only [hz, if_true, Option.some.injEq, Prod.mk.injEq] at hif
  obtain ⟨rfl, rfl⟩ := hif
  intro r' hr' c' hc' hb hz'
  rcases hb with hb | ⟨rfl, hb⟩
  · have hn := hrows r' (Nat.zero_le _) hb
    rw [List.findSome?_eq_none_iff] at hn
    have := hn c' (List.mem_range'_1.mpr ⟨Nat.zero_le _, by omega⟩)
    simp [hz'] at this
  · have := hcols c' (Nat.zero_le _) hb
    simp [hz'] at this

theorem not_lex_lt_of_lex_le {N : Nat} {a b : board} (h : lex_le N a b) :
    ¬ lex_lt N b a := by
  rintro ⟨r, hr, c, hc, hlt, hpre⟩
  rcases h with heq | ⟨r2, hr2, c2, hc2, hlt2, hpre2⟩
  · have := heq r hr c hc
    omega
  · by_cases h1 : before r c r2 c2
    · have := hpre2 r hr c hc h1
      omega
    · by_cases h2 : before r2 c2 r c
      · have := hpre r2 hr2 c2 hc2 h2
        omega
      · unfold before at h1 h2
        have e1 : r = r2 := by omega
        have e2 : c = c2 := by omega
        subst e1; subst e2
        omega

theorem try_values_least {N : Nat} (recurse : board → Option (Option board × board))
    (hrec : ∀ g res fin, WF N g → recurse g = some (res, fin) → search_post N g res fin)
    (hnone : ∀ g fin, WF N g → recurse g = some (none, fin) →
      ∀ h, ¬ search_completion N g h)
    (hleast : ∀ g out fin, WF N g → recurse g = some (some out, fin) →
      ∀ h, search_completion N g h → lex_le N out h)
    {row col : Nat} (hrow : row < N * N) (hcol : col < N * N) {g : board} (hg : WF N g)
    (h0 : cell g row col = 0)
    (hfirst : ∀ r < N * N, ∀ c < N * N, before r c row col → cell g r c ≠ 0) :
    ∀ (n s : Nat), 1 ≤ s → ∀ out fin,
      try_values N recurse row col (List.range' s n) g = some (some out, fin) →
      ∀ h, search_completion N g h → s ≤ cell h row col → lex_le N out h := by
  intro n
  induction n with
  | zero => intro s _ out fin ht; simp [try_values] at ht
  | succ n ih =>
    intro s hs out fin ht h hh hle
    rw [List.range'_succ] at ht
    simp only [try_values] at ht
    have hg1 : WF N (set_cell g row col s) := WF_set_cell hg _ _ _
    by_cases hvalid : is_valid_placement N g row col s = true
    · simp only [hvalid, if_true] at ht
      cases hr : recurse (set_cell g row col s) with
      | none => rw [hr] at ht; cases ht
      | some p =>
        obtain ⟨r1, s1⟩ := p
        have hp := hrec _ _ _ hg1 hr
        rw [hr] at ht
        cases r1 with
        | some x =>
          simp only [Option.some.injEq, Prod.mk.injEq] at ht
          obtain ⟨rfl, rfl⟩ := ht
          obtain ⟨hx, hsc⟩ := hp.2.2 x rfl
          subst hx
          by_cases he : cell h row col = s
          · apply hleast _ _ _ hg1 hr h
            rw [← he]
            exact search_completion_set hg hrow hcol hh
          · right
            refine ⟨row, hrow, col, hcol, ?_, ?_⟩
            · have := hsc.1 row hrow col hcol
                (by rw [cell_set_cell_same hg s hrow hcol]; omega)
              rw [this, cell_set_cell_same hg s hrow hcol]
              omega
            · intro r' hr' c' hc' hb
              have hne := hfirst r' hr' c' hc' hb
              have hd : r' ≠ row ∨ c' ≠ col := by
                unfold before at hb
                omega
              have e1 := hsc.1 r' hr' c' hc'
                (by rw [cell_set_cell_ne _ _ _ _ _ _ hd]; exact hne)
              rw [cell_set_cell_ne _ _ _ _ _ _ hd] at e1
              rw [e1, hh.1 r' hr' c' hc' hne]
        | none =>
          simp only at ht
          have hs1 : s1 = set_cell g row col s := hp.2.1 rfl
          rw [hs1, set_cell_undo hg s hrow hcol h0] at ht
          have hne : cell h row col ≠ s := by
            intro he
            apply hnone _ _ hg1 hr h
            rw [← he]
            exact search_completion_set hg hrow hcol hh
          exact ih (s + 1) (by omega) out fin ht h hh (by omega)
    · simp only [hvalid] at ht
      have hf : is_valid_placement N g row col s = false := by simpa using hvalid
      have hne := rejected_value_excluded hrow hcol h0 (by omega) hh hf
      exact ih (s + 1) (by omega) out fin ht h hh (by omega)

/-- The grid a call of `solve_sudoku` returns is lexicographically least among the boards
the search can end in. -/
theorem solve_sudoku_least {N : Nat} :
    ∀ (fuel : Nat) (g out fin : board), WF N g →
      solve_sudoku N fuel g = some (some out, fin) →
      ∀ h, search_completion N g h → lex_le N out h := by
  intro fuel
  induction fuel with
  | zero => intro g out fin _ h; simp [solve_sudoku] at h
  | succ fuel ih =>
    intro g out fin hg hs h hh
    simp only [solve_sudoku] at hs
    cases hf : find_blank N g with
    | none =>
      rw [hf] at hs
      simp only [Option.some.injEq, Prod.mk.injEq] at hs
      obtain ⟨rfl, _⟩ := hs
      have hnb := find_blank_eq_none.mp hf
      exact Or.inl (fun r hr c hc => (hh.1 r hr c hc (hnb r hr c hc)).symm)
    | some p =>
      obtain ⟨row, col⟩ := p
      rw [hf] at hs
      simp only at hs
      obtain ⟨hrow, hcol, h0⟩ := find_blank_eq_some hf
      exact try_values_least (solve_sudoku N fuel)
        (fun g res fin hg hs => solve_sudoku_post fuel g res fin hg hs)
        (fun g fin hg hs => solve_sudoku_exhaustive fuel g fin hg hs)
        ih hrow hcol hg h0 (find_blank_first hf) (N * N) 1 (Nat.le_refl _) out fin hs h hh
        (hh.2 row hrow col hcol h0).1.1

theorem in_range_of_valid_completion {N : Nat} {g h : board}
    (hh : valid_completion N g h) : in_range N g := by
  intro r hr c hc
  by_cases hz : cell g r c = 0
  · omega
  · rw [← hh.2.2.1 r hr c hc hz]
    exact (hh.2.1 r hr c hc).2

theorem consistent_of_valid_completion {N : Nat} {g h : board}
    (hh : valid_completion N g h) : consistent N g := by
  intro r hr c hc r' hr' c' hc' hd hu hne he
  have hne' : cell g r' c' ≠ 0 := by rw [← he]; exact hne
  apply distinct_of_valid_complete hh.2.1 hh.2.2.2 hr hc hr' hc' hd hu
  rw [hh.2.2.1 r hr c hc hne, hh.2.2.1 r' hr' c' hc' hne', he]

/-- C15, the first solution found is the least: for a box size `N ≥ 1` and an `S × S` input
grid with at least one valid completion, `get_solved` returns a valid completion of the
input that is lexicographically smallest, cells compared in row-major order: it is smaller
than or equal to every valid completion, and no valid completion is smaller than it. -/
theorem C15_first_solution_is_least (N : Nat) (_hN : 1 ≤ N) (g : board) (hg : WF N g)
    (hex : ∃ h, valid_completion N g h) :
    ∃ out, get_solved N g = some out ∧ valid_completion N g out ∧
      (∀ h, valid_completion N g h → lex_le N out h) ∧
      (∀ h, valid_completion N g h → ¬ lex_lt N h out) := by
  obtain ⟨h0, hh0⟩ := hex
  cases hr : get_solved N g with
  | none => exact absurd (search_completion_of_valid hh0) (get_solved_none hg hr h0)
  | some out =>
    obtain ⟨hw, hs⟩ := get_solved_some hg hr
    have hle : ∀ h, valid_completion N g h → lex_le N out h := by
      intro h hh
      unfold get_solved at hr
      cases hsol : solve_sudoku N (count_blank g + 1) g with
      | none => rw [hsol] at hr; cases hr
      | some p =>
        obtain ⟨res, fin⟩ := p
        rw [hsol] at hr
        simp only at hr
        subst hr
        exact solve_sudoku_least _ g out fin hg hsol h (search_completion_of_valid hh)
    exact ⟨out, rfl,
      valid_of_search_completion (in_range_of_valid_completion hh0)
        (consistent_of_valid_completion hh0) hw hs,
      hle, fun h hh => not_lex_lt_of_lex_le (hle h hh)⟩

theorem C15_first_solution_is_least_witness :
    (WF 2 two_way_puzzle ∧ valid_completion 2 two_way_puzzle two_way_larger) ∧
    ∃ out, get_solved 2 two_way_puzzle = some out ∧ valid_completion 2 two_way_puzzle out ∧
      (∀ h, valid_completion 2 two_way_puzzle h → lex_le 2 out h) ∧
      (∀ h, valid_completion 2 two_way_puzzle h → ¬ lex_lt 2 h out) :=
  ⟨⟨by decide, by decide, by decide, by decide,
      valid_complete_of_consistent (by decide) (by decide)⟩,
    C15_first_solution_is_least 2 (by decide) two_way_puzzle (by decide)
      ⟨two_way_larger, by decide, by decide, by decide,
        valid_complete_of_consistent (by decide) (by decide)⟩⟩

/-! ## Index safety -/

theorem pos_of_lt_sq {N r : Nat} (hr : r < N * N) : 0 < N := by
  rcases Nat.eq_zero_or_pos N with h | h
  · subst h; simp at hr
  · exact h

theorem placement_reads_in_range {N row col i : Nat} (hrow : row < N * N)
    (hcol : col < N * N) (hi : i < N * N) :
    N * (row / N) + i / N < N * N ∧ N * (col / N) + i % N < N * N :=
  ⟨box_row_lt (div_lt_of_lt_sq hrow) (div_lt_of_lt_sq hi),
    box_row_lt (div_lt_of_lt_sq hcol) (Nat.mod_lt _ (pos_of_lt_sq hi))⟩

theorem is_valid_placement_checked_eq {N : Nat} (b : board) {row col : Nat} (v : Nat)
    (hrow : row < N * N) (hcol : col < N * N) :
    is_valid_placement_checked N b row col v = some (is_valid_placement N b row col v) := by
  unfold is_valid_placement_checked is_valid_placement
  have key : ∀ l : List Nat, (∀ i ∈ l, i < N * N) →
      l.foldr (fun i rest =>
        match cell_checked N b row i, cell_checked N b i col,
            cell_checked N b (N * (row / N) + i / N) (N * (col / N) + i % N) with
        | some x, some y, some z =>
          if x == v || y == v || z == v then some false else rest
        | _, _, _ => none) (some true) =
      some (l.all fun i =>
        !(cell b row i == v || cell b i col == v ||
          cell b (N * (row / N) + i / N) (N * (col / N) + i % N) == v)) := by
    intro l
    induction l with
    | nil => intro _; rfl
    | cons i l ih =>
      intro hl
      have hi : i < N * N := hl i (List.mem_cons_self _ _)
      have hbox := placement_reads_in_range hrow hcol hi
      rw [List.foldr_cons, ih (fun j hj => hl j (List.mem_cons_of_mem _ hj))]
      simp only [cell_checked, hrow, hcol, hi, hbox.1, hbox.2, and_self, if_true,
        List.all_cons]
      by_cases hc : (cell b row i == v || cell b i col == v ||
          cell b (N * (row / N) + i / N) (N * (col / N) + i % N) == v) = true
      · rw [if_pos hc, hc]; rfl
      · rw [if_neg hc]
        have hc2 := Bool.eq_false_iff.mpr hc
        rw [hc2]; rfl
  exact key _ (fun i hi => List.mem_range.mp hi)

theorem find_blank_checked_eq {N : Nat} (b : board) :
    find_blank_checked N b = some (find_blank N b) := by
  unfold find_blank_checked find_blank
  have inner : ∀ (row : Nat), row < N * N → ∀ (cols : List Nat), (∀ c ∈ cols, c < N * N) →
      ∀ acc : Option (Option (Nat × Nat)),
      cols.foldr (fun col later =>
        match cell_checked N b row col with
        | some x => if x = 0 then some (some (row, col)) else later
        | none => none) acc =
      match cols.findSome? (fun col => if cell b row col = 0 then some (row, col) else none) with
      | some p => some (some p)
      | none => acc := by
    intro row hrow cols
    induction cols with
    | nil => intro _ acc; rfl
    | cons c cols ih =>
      intro hl acc
      have hc : c < N * N := hl c (List.mem_cons_self _ _)
      rw [List.foldr_cons, ih (fun j hj => hl j (List.mem_cons_of_mem _ hj)),
        List.findSome?_cons]
      simp only [cell_checked, hrow, hc, and_self, if_true]
      by_cases hz : cell b row c = 0
      · simp [hz]
      · simp [hz]
  have outer : ∀ (rows : List Nat), (∀ r ∈ rows, r < N * N) →
      rows.foldr (fun row later_rows =>
        (List.range (N * N)).foldr (fun col later =>
          match cell_checked N b row col with
          | some x => if x = 0 then some (some (row, col)) else later
          | none => none) later_rows) (some none) =
      some (rows.findSome? fun row =>
        (List.range (N * N)).findSome? fun col =>
          if cell b row col = 0 then some (row, col) else none) := by
    intro rows
    induction rows with
    | nil => intro _; rfl
    | cons r rows ih =>
      intro hl
      have hr : r < N * N := hl r (List.mem_cons_self _ _)
      rw [List.foldr_cons, ih (fun j hj => hl j (List.mem_cons_of_mem _ hj)),
        inner r hr _ (fun c hc => List.mem_range.mp hc), List.findSome?_cons]
      cases (List.range (N * N)).findSome?
        (fun col => if cell b r col = 0 then some (r, col) else none) <;> rfl
  exact outer _ (fun r hr => List.mem_range.mp hr)

theorem try_values_checked_eq {N : Nat}
    (recurse_checked : board → Option (Option (Option board × board)))
    (recurse : board → Option (Option board × board))
    (hsame : ∀ g, WF N g → recurse_checked g = some (recurse g))
    (hrec : ∀ g res fin, WF N g → recurse g = some (res, fin) → search_post N g res fin)
    {row col : Nat} (hrow : row < N * N) (hcol : col < N * N) :
    ∀ (vs : List Nat) (g : board), WF N g →
      try_values_checked N recurse_checked row col vs g =
        some (try_values N recurse row col vs g) := by
  intro vs
  induction vs with
  | nil => intro g _; rfl
  | cons v rest ih =>
    intro g hg
    have hg1 : WF N (set_cell g row col v) := WF_set_cell hg _ _ _
    simp only [try_values_checked, try_values, is_valid_placement_checked_eq g v hrow hcol]
    cases hvalid : is_valid_placement N g row col v with
    | false => simpa using ih g hg
    | true =>
      simp only [set_cell_checked, hrow, hcol, and_self, if_true, hsame _ hg1]
      cases hr : recurse (set_cell g row col v) with
      | none => rfl
      | some p =>
        obtain ⟨r1, s⟩ := p
        have hp := hrec _ _ _ hg1 hr
        cases r1 with
        | some x => rfl
        | none => simpa using ih _ (WF_set_cell hp.1 _ _ _)

/-- On a well-formed grid the solver with every array access checked never meets an access
outside the grid and computes what `solve_sudoku` computes. -/
theorem solve_sudoku_checked_eq {N : Nat} :
    ∀ (fuel : Nat) (g : board), WF N g →
      solve_sudoku_checked N fuel g = some (solve_sudoku N fuel g) := by
  intro fuel
  induction fuel with
  | zero => intro g _; rfl
  | succ fuel ih =>
    intro g hg
    simp only [solve_sudoku_checked, solve_sudoku, find_blank_checked_eq]
    cases hf : find_blank N g with
    | none => rfl
    | some p =>
      obtain ⟨row, col⟩ := p
      obtain ⟨hrow, hcol, _⟩ := find_blank_eq_some hf
      exact try_values_checked_eq (solve_sudoku_checked N fuel) (solve_sudoku N fuel) ih
        (fun g res fin hg hs => solve_sudoku_post fuel g res fin hg hs) hrow hcol _ g hg

/-- C16, index safety: for a box size `N ≥ 1`, `row < S`, `col < S` and `i < S`, the cells
read by `is_valid_placement` are inside the grid, in particular
`N * (row / N) + i / N < S` and `N * (col / N) + i % N < S`; an index pair below `S` is
inside a well-formed board; and with every array access checked, `is_valid_placement` and
`solve_sudoku` never meet an access outside the grid and compute the same results. -/
theorem C16_index_safety (N : Nat) (_hN : 1 ≤ N) :
    (∀ row < N * N, ∀ col < N * N, ∀ i < N * N,
      N * (row / N) + i / N < N * N ∧ N * (col / N) + i % N < N * N) ∧
    (∀ b : board, WF N b → ∀ row < N * N, ∀ col < N * N,
      row < b.length ∧ col < (b.getD row []).length) ∧
    (∀ (b : board) (row col value : Nat), row < N * N → col < N * N →
      is_valid_placement_checked N b row col value =
        some (is_valid_placement N b row col value)) ∧
    (∀ (fuel : Nat) (g : board), WF N g →
      solve_sudoku_checked N fuel g = some (solve_sudoku N fuel g)) :=
  ⟨fun _ hrow _ hcol _ hi => placement_reads_in_range hrow hcol hi,
    fun _ hb => reads_in_range_of_WF hb,
    fun b _ _ value hrow hcol => is_valid_placement_checked_eq b value hrow hcol,
    solve_sudoku_checked_eq⟩

theorem C16_index_safety_witness :
    1 ≤ 2 ∧
    is_valid_placement_checked 2 small_puzzle 0 1 3 =
      some (is_valid_placement 2 small_puzzle 0 1 3) ∧
    solve_sudoku_checked 2 5 small_puzzle = some (solve_sudoku 2 5 small_puzzle) :=
  ⟨by decide,
    (C16_index_safety 2 (by decide)).2.2.1 small_puzzle 0 1 3 (by decide) (by decide),
    (C16_index_safety 2 (by decide)).2.2.2 5 small_puzzle (by decide)⟩


end ComptimeSudoku
